import Mathlib

/-!
# go_coffeecache: a sharded in-memory cache with per-entry TTL

A shallow embedding of `main.go`: the FNV-1a routing function, the expiry
computation through `time.Time`, and the operations `NewShardedCache`, `Set`, `Get`
and `clear` on the array of 256 shards.

Modelling conventions.
* A Go `string` is its sequence of bytes.
* Machine integers are `Nat`/`Int` with explicit wrap-around (`% 2^32`, `wrapInt64`).
* A Go pointer `*T` is `Option T`, `none` being `nil`.  No two pointers of the program
  alias, so the pointee is stored in place of the pointer.
* A run-time panic (nil dereference, write to a nil map, index out of range) is an
  `Except.error`; every operation returns in `Except Panic`.
* `time.Now()` is an argument of the operation that calls it.
* The mutexes carry no data; the operations are sequential, and `Get` is also given as
  its two locked sections so that another call can be placed between them.
* For the concurrency claim the lock and map statements of each operation are listed in
  source order as events, and goroutines interleave them under the blocking rule of
  `sync.RWMutex`.
* The reference cache of the refinement claim is a single map, written from the words of
  the specification.
-/

namespace CoffeeCache

/-! ## Constants (main.go, lines 10-13) -/

/-- The constant `numShards`. -/
def numShards : Nat := 256

/-- The constant `totalOperations`. -/
def totalOperations : Nat := 2000000

/-! ## Go values -/

/-- A Go `string`: a sequence of bytes. -/
abbrev GoString := List (Fin 256)

/-- The run-time panics the operations could raise. -/
inductive Panic where
  | nilDereference
  | assignToNilMap
  | indexOutOfRange
  deriving DecidableEq, Repr

/-- A Go pointer `*T`; `none` is `nil`. -/
abbrev Ptr (α : Type) := Option α

/-- Dereferencing a pointer: a nil pointer panics. -/
def deref {α : Type} (p : Ptr α) : Except Panic α :=
  match p with
  | none => Except.error Panic.nilDereference
  | some a => Except.ok a

/-- Conversion to `int64`: two's complement wrap-around. -/
def wrapInt64 (x : Int) : Int := (x + 2 ^ 63) % 2 ^ 64 - 2 ^ 63

/-- The values of type `int64`. -/
def IsInt64 (x : Int) : Prop := -(2 ^ 63) ≤ x ∧ x < 2 ^ 63

instance (x : Int) : Decidable (IsInt64 x) := by
  unfold IsInt64; infer_instance

/-! ## Package `hash/fnv`: 32-bit FNV-1a -/

/-- The constant `offset32` of `hash/fnv`. -/
def offset32 : Nat := 2166136261

/-- The constant `prime32` of `hash/fnv`. -/
def prime32 : Nat := 16777619

/-- The hasher `fnv.New32a()`: a `uint32` state starting at `offset32`. -/
def New32a : Nat := offset32

/-- The method `(*sum32a).Write`: for each byte, `hash ^= c; hash *= prime32` in `uint32`. -/
def Write (hash : Nat) (data : GoString) : Nat :=
  data.foldl (fun h c => ((h ^^^ c.val) * prime32) % 2 ^ 32) hash

/-- The method `Sum32`: the current state. -/
def Sum32 (hash : Nat) : Nat := hash

/-! ## Package `time` -/

/-- A `time.Duration`: an `int64` count of nanoseconds. -/
abbrev Duration := Int

/-- The constant `time.Second`. -/
def Second : Duration := 1000000000

/-- The product `time.Duration(ttl) * time.Second`, in `int64` arithmetic. -/
def Duration.mulSecond (ttl : Int) : Duration := wrapInt64 (ttl * Second)

/-- A `time.Time` wall-clock reading: Unix seconds and the nanoseconds within the second.
The seconds are unbounded: a clock reading plus a `Duration` (at most about 292 years)
stays far inside the range where `time.Time` saturates. -/
structure Time where
  sec : Int
  nsec : Int
  nsec_nonneg : 0 ≤ nsec
  nsec_lt : nsec < 1000000000

/-- The method `Time.Add`: `d / 1e9` and `d % 1e9` truncate towards zero, and the
nanoseconds are brought back into `[0, 1e9)` with a carry into the seconds. -/
def Time.Add (t : Time) (d : Duration) : Time :=
  let dsec := Int.tdiv d 1000000000
  let nsec := t.nsec + Int.tmod d 1000000000
  if h1 : nsec ≥ 1000000000 then
    { sec := t.sec + (dsec + 1), nsec := nsec - 1000000000,
      nsec_nonneg := by omega,
      nsec_lt := by
        have := Int.tmod_lt_of_pos d (show (0 : Int) < 1000000000 by decide)
        have := t.nsec_lt
        omega }
  else if h2 : nsec < 0 then
    { sec := t.sec + (dsec - 1), nsec := nsec + 1000000000,
      nsec_nonneg := by
        have hlow : -1000000000 < Int.tmod d 1000000000 := by
          rcases lt_or_le d 0 with hd | hd
          · have hm := Int.tmod_lt_of_pos (-d) (show (0 : Int) < 1000000000 by decide)
            have e1 := Int.tmod_def d 1000000000
            have e2 := Int.tmod_def (-d) 1000000000
            rw [Int.neg_tdiv] at e2
            omega
          · have := Int.tmod_nonneg 1000000000 hd
            omega
        have := t.nsec_nonneg
        omega,
      nsec_lt := by omega }
  else
    { sec := t.sec + dsec, nsec := nsec,
      nsec_nonneg := by omega,
      nsec_lt := by omega }

/-- The method `Time.Unix`: seconds since the epoch. -/
def Time.Unix (t : Time) : Int := t.sec

/-- Nanoseconds since the epoch (`Time.UnixNano`), used to measure elapsed time. -/
def Time.UnixNano (t : Time) : Int := t.sec * 1000000000 + t.nsec

/-! ## Data model (main.go, lines 22-38) -/

/-- The struct `Item`. -/
structure Item (V : Type) where
  Value : V
  Expiration : Int

/-- A Go `map[string]*Item`; `none` is the nil map, and an entry holds a pointer. -/
abbrev ItemMap (V : Type) := Option (GoString → Option (Ptr (Item V)))

/-- The expression `make(map[string]*Item)`: an initialised, empty map. -/
def ItemMap.make {V : Type} : ItemMap V := some (fun _ => none)

/-- The expression `item, found := m[key]`; reading a nil map finds nothing. -/
def ItemMap.lookup {V : Type} (m : ItemMap V) (key : GoString) : Ptr (Item V) × Bool :=
  match m with
  | none => (none, false)
  | some f =>
    match f key with
    | none => (none, false)
    | some p => (p, true)

/-- The statement `m[key] = p`; writing to a nil map panics. -/
def ItemMap.store {V : Type} (m : ItemMap V) (key : GoString) (p : Ptr (Item V)) :
    Except Panic (ItemMap V) :=
  match m with
  | none => Except.error Panic.assignToNilMap
  | some f => Except.ok (some (Function.update f key (some p)))

/-- The statement `delete(m, key)`; a no-op on a nil map and on an absent key. -/
def ItemMap.delete {V : Type} (m : ItemMap V) (key : GoString) : ItemMap V :=
  match m with
  | none => none
  | some f => some (Function.update f key none)

/-- The struct `CacheShard` (its mutex carries no data). -/
structure CacheShard (V : Type) where
  items : ItemMap V

/-- The struct `ShardedCache`: the array `[numShards]*CacheShard`. -/
structure ShardedCache (V : Type) where
  shards : Fin numShards → Ptr (CacheShard V)

/-- Bounds check of an index into the array `shards`. -/
def index (i : Nat) : Except Panic (Fin numShards) :=
  if h : i < numShards then Except.ok ⟨i, h⟩ else Except.error Panic.indexOutOfRange

/-- Writing the shard held in slot `i`. -/
def ShardedCache.setShard {V : Type} (sc : ShardedCache V) (i : Fin numShards)
    (s : Ptr (CacheShard V)) : ShardedCache V :=
  { shards := Function.update sc.shards i s }

/-! ## Operations (main.go, lines 40-97) -/

/-- The body of the loop of `NewShardedCache`: `cache.shards[i] = &CacheShard{...}`. -/
def NewShardedCache.body {V : Type} (cache : ShardedCache V) (i : Nat) :
    Except Panic (ShardedCache V) := do
  let slot ← index i
  pure (cache.setShard slot (some { items := ItemMap.make }))

/-- The function `NewShardedCache`: `&ShardedCache{}` has every slot nil, and the loop
`for i := 0; i < numShards; i++` stores a fresh shard with an empty map in slot `i`. -/
def NewShardedCache {V : Type} : Except Panic (ShardedCache V) :=
  (List.range numShards).foldlM NewShardedCache.body { shards := fun _ => none }

/-- The method `getShard`: the slot `uint(hasher.Sum32()) % numShards` of the array.
The `*CacheShard` it returns is represented by the slot that holds it. -/
def getShard {V : Type} (_sc : ShardedCache V) (key : GoString) :
    Except Panic (Fin numShards) :=
  let hasher := New32a
  let hasher := Write hasher key
  index (Sum32 hasher % numShards)

/-- The method `Set`, called at clock reading `now` (lines 59-69). -/
def Set {V : Type} (sc : ShardedCache V) (now : Time) (key : GoString) (value : V)
    (ttl : Int) : Except Panic (ShardedCache V) := do
  let shard ← getShard sc key
  let expiration := (now.Add (Duration.mulSecond ttl)).Unix
  let s ← deref (sc.shards shard)
  let items ← s.items.store key (some { Value := value, Expiration := expiration })
  pure (sc.setShard shard (some { s with items := items }))

/-- The first locked section of `Get` (lines 73-77): route, then read the map under the
shared lock. -/
def Get.read {V : Type} (sc : ShardedCache V) (key : GoString) :
    Except Panic (Fin numShards × Ptr (Item V) × Bool) := do
  let shard ← getShard sc key
  let s ← deref (sc.shards shard)
  let (item, found) := s.items.lookup key
  pure (shard, item, found)

/-- The rest of `Get` (lines 79-87), run at clock reading `now` on the locals `shard`,
`item`, `found` of the first section: the staleness test, the delete under the exclusive
lock, and the result.  The result `nil` is `none`. -/
def Get.finish {V : Type} (sc : ShardedCache V) (now : Time) (key : GoString)
    (shard : Fin numShards) (item : Ptr (Item V)) (found : Bool) :
    Except Panic ((Option V × Bool) × ShardedCache V) := do
  let stale ←
    if !found then pure true
    else do
      let it ← deref item
      pure (decide (now.Unix > it.Expiration))
  if stale then
    if found then do
      let s ← deref (sc.shards shard)
      pure ((none, false), sc.setShard shard (some { s with items := s.items.delete key }))
    else
      pure ((none, false), sc)
  else do
    let it ← deref item
    pure ((some it.Value, true), sc)

/-- The method `Get`, called at clock reading `now` (lines 72-88): both sections in
sequence, with nothing in between. -/
def Get {V : Type} (sc : ShardedCache V) (now : Time) (key : GoString) :
    Except Panic ((Option V × Bool) × ShardedCache V) := do
  let (shard, item, found) ← Get.read sc key
  Get.finish sc now key shard item found

/-- The body of the loop of `clear`, for the shard of slot `i`:
`shard.items = make(map[string]*Item)` between `Lock` and `Unlock`. -/
def clear.body {V : Type} (c : ShardedCache V) (i : Fin numShards) :
    Except Panic (ShardedCache V) := do
  let s ← deref (c.shards i)
  pure (c.setShard i (some { s with items := ItemMap.make }))

/-- The method `clear` (lines 91-97): `for _, shard := range sc.shards` visits every
slot in turn. -/
def clear {V : Type} (sc : ShardedCache V) : Except Panic (ShardedCache V) :=
  (List.finRange numShards).foldlM clear.body sc

/-! ## Observations and call sequences -/

/-- The slot `uint(hasher.Sum32()) % numShards` that `getShard` selects for `key`. -/
def shardIndex (key : GoString) : Fin numShards :=
  ⟨Sum32 (Write New32a key) % numShards, Nat.mod_lt _ (by decide)⟩

/-- The entry that the shard routed for `key` holds for `key`, if there is one. -/
def ShardedCache.entry {V : Type} (sc : ShardedCache V) (key : GoString) :
    Option (Item V) :=
  match getShard sc key with
  | Except.error _ => none
  | Except.ok i =>
    match sc.shards i with
    | none => none
    | some s =>
      match s.items.lookup key with
      | (some it, true) => some it
      | _ => none

/-- No nil anywhere: every slot holds a shard, every shard an initialised map, and every
entry of a map a non-nil `*Item`. -/
def WellFormed {V : Type} (sc : ShardedCache V) : Prop :=
  ∀ i : Fin numShards, ∃ f : GoString → Option (Ptr (Item V)),
    sc.shards i = some { items := some f } ∧ ∀ k, f k ≠ some none

/-- One call of the public interface with the clock reading it observes. -/
inductive Call (V : Type) where
  | set (now : Time) (key : GoString) (value : V) (ttl : Int)
  | get (now : Time) (key : GoString)
  | clear

/-- The call is a `Set` or a `Get` on `key`. -/
def Call.onKey {V : Type} (c : Call V) (key : GoString) : Prop :=
  match c with
  | Call.set _ k _ _ => k = key
  | Call.get _ k => k = key
  | Call.clear => False

instance {V : Type} (c : Call V) (key : GoString) : Decidable (c.onKey key) :=
  match c with
  | Call.set _ k _ _ => inferInstanceAs (Decidable (k = key))
  | Call.get _ k => inferInstanceAs (Decidable (k = key))
  | Call.clear => inferInstanceAs (Decidable False)

/-- The state after one call. -/
def step {V : Type} (sc : ShardedCache V) (c : Call V) : Except Panic (ShardedCache V) :=
  match c with
  | Call.set now key value ttl => Set sc now key value ttl
  | Call.get now key => (Get sc now key).map Prod.snd
  | Call.clear => clear sc

/-- The state after a sequence of calls, one after the other. -/
def run {V : Type} (sc : ShardedCache V) (calls : List (Call V)) :
    Except Panic (ShardedCache V) :=
  calls.foldlM step sc

/-- The cache states reachable from `NewShardedCache` by `Set`, `Get` and `clear`; the TTL
of a `Set` is an `int64`. -/
inductive Reachable {V : Type} : ShardedCache V → Prop where
  | new {sc : ShardedCache V} : NewShardedCache = Except.ok sc → Reachable sc
  | set {sc sc' : ShardedCache V} (now : Time) (key : GoString) (value : V) (ttl : Int) :
      Reachable sc → IsInt64 ttl → Set sc now key value ttl = Except.ok sc' → Reachable sc'
  | get {sc sc' : ShardedCache V} (now : Time) (key : GoString) (r : Option V × Bool) :
      Reachable sc → Get sc now key = Except.ok (r, sc') → Reachable sc'
  | clear {sc sc' : ShardedCache V} :
      Reachable sc → clear sc = Except.ok sc' → Reachable sc'

/-- The cache in which every slot holds a shard with an initialised, empty map: the
value that `NewShardedCache` returns. -/
def emptyCache {V : Type} : ShardedCache V :=
  { shards := fun _ => some { items := ItemMap.make } }

/-- The calls `Set(key, value, ttl)` for a list of (clock reading, key, value, TTL). -/
def setCalls {V : Type} (l : List (Time × GoString × V × Int)) : List (Call V) :=
  l.map fun a => Call.set a.1 a.2.1 a.2.2.1 a.2.2.2

/-! ## The benchmark driver (main.go, lines 99-143) -/

/-- The decimal rendering of a non-negative `int` by the verb `%d`. -/
def decimal (n : Nat) : GoString :=
  if n = 0 then [48] else (Nat.digits 10 n).reverse.map fun d => Fin.ofNat (48 + d)

/-- The number that a string of decimal digits denotes. -/
def decimalValue (s : GoString) : Nat :=
  Nat.ofDigits 10 (s.map fun b => b.val - 48).reverse

/-- The key `fmt.Sprintf("key%d", i)`. -/
def benchKey (i : Nat) : GoString := [107, 101, 121] ++ decimal i

/-- The calls `cache.Set(fmt.Sprintf("key%d", i), i, 3600)` of `BenchmarkSet`, in the
order in which the goroutines run them: each index with the clock reading of its call. -/
def benchmarkSetCalls (order : List (Nat × Time)) : List (Call Int) :=
  order.map fun p => Call.set p.2 (benchKey p.1) (p.1 : Int) 3600

/-- The function `BenchmarkSet` on the cache: its `Set` calls, one after the other in the
order `order`. -/
def BenchmarkSet (cache : ShardedCache Int) (order : List (Nat × Time)) :
    Except Panic (ShardedCache Int) :=
  run cache (benchmarkSetCalls order)

/-- One call `cache.Get(fmt.Sprintf("key%d", i))` of `BenchmarkGet`; the result, which
the source discards, is appended to the results so far. -/
def BenchmarkGet.body (acc : List (Option Int × Bool) × ShardedCache Int)
    (p : Nat × Time) : Except Panic (List (Option Int × Bool) × ShardedCache Int) := do
  let (r, cache) ← Get acc.2 p.2 (benchKey p.1)
  pure (acc.1 ++ [r], cache)

/-- The function `BenchmarkGet` on the cache: its `Get` calls, one after the other in the
order `order`, each index with the clock reading of its call; the results are collected
in that order. -/
def BenchmarkGet (cache : ShardedCache Int) (order : List (Nat × Time)) :
    Except Panic (List (Option Int × Bool) × ShardedCache Int) :=
  order.foldlM BenchmarkGet.body ([], cache)

/-! ## Sample inputs -/

/-- A clock reading: 1700000000 s after the epoch, on the second. -/
def clock0 : Time :=
  { sec := 1700000000, nsec := 0, nsec_nonneg := by decide, nsec_lt := by decide }

/-- A clock reading 0.9 s into the second 1700000000. -/
def clockA : Time :=
  { sec := 1700000000, nsec := 900000000, nsec_nonneg := by decide, nsec_lt := by decide }

/-- A clock reading 1.05 s after `clockA`. -/
def clockB : Time :=
  { sec := 1700000001, nsec := 950000000, nsec_nonneg := by decide, nsec_lt := by decide }

/-- A clock reading 100 s after `clock0`. -/
def clockLate : Time :=
  { sec := 1700000100, nsec := 0, nsec_nonneg := by decide, nsec_lt := by decide }

/-- The key `"k"`. -/
def keyK : GoString := [107]

/-- The schedule of `BenchmarkSet` in which the goroutines run in the order of their
index, all of them within the second of `clock0`. -/
def sampleOrder : List (Nat × Time) :=
  (List.range totalOperations).map fun i => (i, clock0)

/-- The cache after `Set("k", 1, 3600)` at `clock0` on a new cache. -/
def sampleCache : ShardedCache Int :=
  emptyCache.setShard (shardIndex keyK)
    (some { items := some (Function.update (fun _ => none) keyK
      (some (some { Value := 1,
                    Expiration := (clock0.Add (Duration.mulSecond 3600)).Unix }))) })

/-! ## Reference definitions for the routing claims -/

/-- One pass of the FNV-1a hash over the remaining bytes as the specification words it:
for each byte `b` in order, `h := ((h xor b) * 16777619) mod 2^32`. -/
def FNV1a32.go (h : Nat) : GoString → Nat
  | [] => h
  | b :: bs => FNV1a32.go (((h ^^^ b.val) * 16777619) % 2 ^ 32) bs

/-- The 32-bit FNV-1a hash as the specification words it: the pass started from
`h = 2166136261`. -/
def FNV1a32 (key : GoString) : Nat := FNV1a32.go 2166136261 key

/-- The key `"a"`. -/
def keyA : GoString := [97]

/-! ## Physical contents of the shards -/

/-- What the map of slot `i` physically holds for `key`; `none` when the key is not in
that map (or the slot or its map is nil). -/
def ShardedCache.stored {V : Type} (sc : ShardedCache V) (i : Fin numShards)
    (key : GoString) : Option (Ptr (Item V)) :=
  match sc.shards i with
  | none => none
  | some s =>
    match s.items with
    | none => none
    | some f => f key

/-- Every key that a map holds routes to the slot of that map. -/
def Placed {V : Type} (sc : ShardedCache V) : Prop :=
  ∀ (i : Fin numShards) (k : GoString), sc.stored i k ≠ none → shardIndex k = i

/-! ## The reference cache of the refinement claim -/

/-- The reference cache: one single map from key to `(Value, Expiration)`. -/
abbrev RefCache (V : Type) := GoString → Option (V × Int)

/-- The new reference cache: the empty map. -/
def RefCache.new {V : Type} : RefCache V := fun _ => none

/-- The rule of `Set` on the single map: the key gets the value and the expiration that
`Set` computes from the clock reading and the TTL. -/
def RefCache.Set {V : Type} (m : RefCache V) (now : Time) (key : GoString) (value : V)
    (ttl : Int) : RefCache V :=
  Function.update m key (some (value, (now.Add (Duration.mulSecond ttl)).Unix))

/-- The rule of `Get` on the single map: an entry with `now > Expiration` is deleted and
not found; an absent key is not found; otherwise the value is returned. -/
def RefCache.Get {V : Type} (m : RefCache V) (now : Time) (key : GoString) :
    (Option V × Bool) × RefCache V :=
  match m key with
  | none => ((none, false), m)
  | some (v, e) =>
    if now.Unix > e then ((none, false), Function.update m key none)
    else ((some v, true), m)

/-- The rule of `clear` on the single map: the empty map. -/
def RefCache.clear {V : Type} (_m : RefCache V) : RefCache V := fun _ => none

/-- The results of the `Get` calls of a sequence of calls on the reference cache, in
order, and the map it ends with. -/
def RefCache.observe {V : Type} (m : RefCache V) :
    List (Call V) → List (Option V × Bool) × RefCache V
  | [] => ([], m)
  | Call.set now key value ttl :: cs => RefCache.observe (m.Set now key value ttl) cs
  | Call.get now key :: cs =>
    let (r, m') := m.Get now key
    let (rs, m'') := RefCache.observe m' cs
    (r :: rs, m'')
  | Call.clear :: cs => RefCache.observe m.clear cs

/-- The results of the `Get` calls of a sequence of calls on the sharded cache, in order,
and the cache it ends with. -/
def observe {V : Type} (sc : ShardedCache V) :
    List (Call V) → Except Panic (List (Option V × Bool) × ShardedCache V)
  | [] => Except.ok ([], sc)
  | Call.set now key value ttl :: cs => do
    let sc' ← Set sc now key value ttl
    observe sc' cs
  | Call.get now key :: cs => do
    let (r, sc') ← Get sc now key
    let (rs, sc'') ← observe sc' cs
    pure (r :: rs, sc'')
  | Call.clear :: cs => do
    let sc' ← clear sc
    observe sc' cs

/-- The simulation relation: the single map is the union of the shard maps. -/
def IsUnion {V : Type} (sc : ShardedCache V) (m : RefCache V) : Prop :=
  ∀ (k : GoString) (v : V) (e : Int),
    m k = some (v, e) ↔
      ∃ i : Fin numShards, sc.stored i k = some (some { Value := v, Expiration := e })

/-- The invariant that carries the simulation: the sharded cache has no nil and every key
is in the map of its slot, and the single map holds for each key the entry of that key. -/
def Simulates {V : Type} (sc : ShardedCache V) (m : RefCache V) : Prop :=
  WellFormed sc ∧ Placed sc ∧
    ∀ k, m k = (sc.entry k).map fun it => (it.Value, it.Expiration)

/-- The 8-bit recurrence of the routing claim: start at 197 and for each byte `b` in
order set `idx := ((idx xor b) * 147) mod 256`. -/
def index8 (key : GoString) : Nat :=
  key.foldl (fun idx b => ((idx ^^^ b.val) * 147) % 256) 197

/-- The call is a `Set` on `key`. -/
def Call.isSetOn {V : Type} (c : Call V) (key : GoString) : Prop :=
  match c with
  | Call.set _ k _ _ => k = key
  | Call.get _ _ => False
  | Call.clear => False

instance {V : Type} (c : Call V) (key : GoString) : Decidable (c.isSetOn key) :=
  match c with
  | Call.set _ k _ _ => inferInstanceAs (Decidable (k = key))
  | Call.get _ _ => inferInstanceAs (Decidable False)
  | Call.clear => inferInstanceAs (Decidable False)

/-- A clock reading one second past the expiration of the entry of the sample cache. -/
def clockExpired : Time :=
  { sec := 1700003601, nsec := 0, nsec_nonneg := by decide, nsec_lt := by decide }

/-! ## Locks and interleavings (for the concurrency claim) -/

/-- How a goroutine holds the `sync.RWMutex` of a shard: not at all, shared (`RLock`)
or exclusive (`Lock`). -/
inductive Mode where
  | free
  | shared
  | exclusive
  deriving DecidableEq

/-- The statements of `Set`, `Get` and `clear` that touch the mutex or the `items` map of
the shard in slot `i`. -/
inductive Event where
  | Lock (i : Fin numShards)
  | Unlock (i : Fin numShards)
  | RLock (i : Fin numShards)
  | RUnlock (i : Fin numShards)
  | mapRead (i : Fin numShards)
  | mapInsert (i : Fin numShards)
  | mapDelete (i : Fin numShards)
  | mapReplace (i : Fin numShards)

/-- The events of `Set` in source order (lines 63-68): `shard.mu.Lock()`,
`shard.items[key] = ...`, `shard.mu.Unlock()`. -/
def Set.events (key : GoString) : List Event :=
  let shard := shardIndex key
  [Event.Lock shard, Event.mapInsert shard, Event.Unlock shard]

/-- The events of `Get` in source order: `RLock`, `shard.items[key]`, `RUnlock`
(lines 75-77), and, when the entry was found stale, `Lock`, `delete(shard.items, key)`,
`Unlock` (lines 81-83). -/
def Get.events (key : GoString) (stale : Bool) : List Event :=
  let shard := shardIndex key
  [Event.RLock shard, Event.mapRead shard, Event.RUnlock shard] ++
    if stale then [Event.Lock shard, Event.mapDelete shard, Event.Unlock shard] else []

/-- The events of `clear` in source order (lines 92-96): for every shard in turn `Lock`,
`shard.items = make(...)`, `Unlock`. -/
@[irreducible]
def clear.events : List Event :=
  (List.finRange numShards).flatMap fun i =>
    [Event.Lock i, Event.mapReplace i, Event.Unlock i]

/-- The event lists of the calls a goroutine can make. -/
def IsCall (es : List Event) : Prop :=
  (∃ key, es = Set.events key) ∨ (∃ key stale, es = Get.events key stale) ∨
    es = clear.events

/-- The locks a goroutine holds, per shard. -/
abbrev Held := Fin numShards → Mode

/-- The event is done under the lock it needs: a map read under the shard's lock, shared
or exclusive; an insert, delete or map replacement under the exclusive lock; an unlock of
a lock that is held in that mode; a lock of a mutex the goroutine does not hold yet. -/
def Event.allowed (held : Held) : Event → Prop
  | Event.Lock i => held i = Mode.free
  | Event.Unlock i => held i = Mode.exclusive
  | Event.RLock i => held i = Mode.free
  | Event.RUnlock i => held i = Mode.shared
  | Event.mapRead i => held i ≠ Mode.free
  | Event.mapInsert i => held i = Mode.exclusive
  | Event.mapDelete i => held i = Mode.exclusive
  | Event.mapReplace i => held i = Mode.exclusive

/-- The locks a goroutine holds after the event. -/
def Event.after (held : Held) : Event → Held
  | Event.Lock i => Function.update held i Mode.exclusive
  | Event.Unlock i => Function.update held i Mode.free
  | Event.RLock i => Function.update held i Mode.shared
  | Event.RUnlock i => Function.update held i Mode.free
  | Event.mapRead _ => held
  | Event.mapInsert _ => held
  | Event.mapDelete _ => held
  | Event.mapReplace _ => held

/-- The lock discipline of a list of events run by a goroutine that holds `held`: every
event is allowed when it is reached, and at the end no lock is held. -/
def Disciplined (held : Held) : List Event → Prop
  | [] => ∀ i, held i = Mode.free
  | e :: es => e.allowed held ∧ Disciplined (e.after held) es

/-- The event reads or writes the `items` map of slot `i`. -/
def Event.accesses (e : Event) (i : Fin numShards) : Prop :=
  e = Event.mapRead i ∨ e = Event.mapInsert i ∨ e = Event.mapDelete i ∨
    e = Event.mapReplace i

/-- The event writes the `items` map of slot `i`. -/
def Event.writes (e : Event) (i : Fin numShards) : Prop :=
  e = Event.mapInsert i ∨ e = Event.mapDelete i ∨ e = Event.mapReplace i

/-- A goroutine: the locks it holds and the events of its current call still to run. -/
structure Goroutine where
  held : Held
  todo : List Event

/-- A system of goroutines, numbered by the natural numbers. -/
abbrev Config := Nat → Goroutine

/-- The start: no goroutine holds a lock or is inside a call. -/
def Config.init : Config := fun _ => { held := fun _ => Mode.free, todo := [] }

/-- The blocking rule of `sync.RWMutex`: `Lock` proceeds only when no goroutine holds the
mutex, `RLock` only when no goroutine holds it exclusively; nothing else blocks. -/
def Event.enabled (c : Config) : Event → Prop
  | Event.Lock i => ∀ g, (c g).held i = Mode.free
  | Event.RLock i => ∀ g, (c g).held i ≠ Mode.exclusive
  | _ => True

/-- One step of the system: a goroutine outside a call starts a call, or a goroutine
runs the next event of its call when the mutex lets it. -/
inductive Config.Step : Config → Config → Prop where
  | call (c : Config) (g : Nat) (es : List Event) :
      (c g).todo = [] → IsCall es →
      Config.Step c (Function.update c g { held := (c g).held, todo := es })
  | event (c : Config) (g : Nat) (e : Event) (rest : List Event) :
      (c g).todo = e :: rest → e.enabled c →
      Config.Step c (Function.update c g { held := e.after (c g).held, todo := rest })

/-- The configurations that some interleaving of the goroutines reaches. -/
inductive Config.Reachable : Config → Prop where
  | init : Config.Reachable Config.init
  | step {c c' : Config} : Config.Reachable c → Config.Step c c' → Config.Reachable c'

/-- The cache states that interleaved goroutines reach when each locked section runs
as one step: `Set`, the second section of `Get` on locals that its first section read in
some earlier state, and the body of `clear` for one shard. -/
inductive Interleaved {V : Type} : ShardedCache V → Prop where
  | new {sc : ShardedCache V} : NewShardedCache = Except.ok sc → Interleaved sc
  | set {sc sc' : ShardedCache V} (now : Time) (key : GoString) (value : V) (ttl : Int) :
      Interleaved sc → Set sc now key value ttl = Except.ok sc' → Interleaved sc'
  | getFinish {sc0 sc sc' : ShardedCache V} (now : Time) (key : GoString)
      (shard : Fin numShards) (item : Ptr (Item V)) (found : Bool) (r : Option V × Bool) :
      Interleaved sc0 → Get.read sc0 key = Except.ok (shard, item, found) →
      Interleaved sc → Get.finish sc now key shard item found = Except.ok (r, sc') →
      Interleaved sc'
  | clearBody {sc sc' : ShardedCache V} (i : Fin numShards) :
      Interleaved sc → clear.body sc i = Except.ok sc' → Interleaved sc'

/-- The mutual exclusion of the mutexes: a shard held exclusively by one goroutine is
held by no other. -/
def Exclusion (c : Config) : Prop :=
  ∀ (g g' : Nat) (i : Fin numShards), g ≠ g' → (c g).held i = Mode.exclusive →
    (c g').held i = Mode.free

/-- The configuration in which goroutine 0 has started `Set("k", ...)`. -/
def configCalled : Config :=
  Function.update Config.init 0 { held := fun _ => Mode.free, todo := Set.events keyK }

/-- The configuration in which goroutine 0 has then taken the lock of the shard of
`"k"`. -/
def configLocked : Config :=
  Function.update configCalled 0
    { held := (Event.Lock (shardIndex keyK)).after (configCalled 0).held,
      todo := [Event.mapInsert (shardIndex keyK), Event.Unlock (shardIndex keyK)] }

/-! ## Basic facts about the operations -/

theorem index_of_lt {i : Nat} (h : i < numShards) : index i = Except.ok ⟨i, h⟩ := by
  simp [index, h]

theorem getShard_eq {V : Type} (sc : ShardedCache V) (key : GoString) :
    getShard sc key = Except.ok (shardIndex key) := by
  unfold getShard shardIndex
  exact index_of_lt _

theorem Set_eq {V : Type} {sc : ShardedCache V} {f : GoString → Option (Ptr (Item V))}
    (now : Time) (key : GoString) (value : V) (ttl : Int)
    (hs : sc.shards (shardIndex key) = some { items := some f }) :
    Set sc now key value ttl = Except.ok (sc.setShard (shardIndex key)
      (some { items := some (Function.update f key
        (some (some { Value := value,
                      Expiration := (now.Add (Duration.mulSecond ttl)).Unix }))) })) := by
  simp [Set, getShard_eq, hs, deref, ItemMap.store, bind, Except.bind, pure, Except.pure]

theorem Get_absent {V : Type} {sc : ShardedCache V} {f : GoString → Option (Ptr (Item V))}
    (now : Time) (key : GoString)
    (hs : sc.shards (shardIndex key) = some { items := some f }) (hk : f key = none) :
    Get sc now key = Except.ok ((none, false), sc) := by
  simp [Get, Get.read, Get.finish, getShard_eq, hs, hk, deref, ItemMap.lookup, bind,
    Except.bind, pure, Except.pure]

theorem Get_fresh {V : Type} {sc : ShardedCache V} {f : GoString → Option (Ptr (Item V))}
    (now : Time) (key : GoString) (it : Item V)
    (hs : sc.shards (shardIndex key) = some { items := some f })
    (hk : f key = some (some it)) (ht : now.Unix ≤ it.Expiration) :
    Get sc now key = Except.ok ((some it.Value, true), sc) := by
  have h : ¬ it.Expiration < now.Unix := not_lt.mpr ht
  simp [Get, Get.read, Get.finish, getShard_eq, hs, hk, h, deref, ItemMap.lookup, bind,
    Except.bind, pure, Except.pure]

theorem Get_stale {V : Type} {sc : ShardedCache V} {f : GoString → Option (Ptr (Item V))}
    (now : Time) (key : GoString) (it : Item V)
    (hs : sc.shards (shardIndex key) = some { items := some f })
    (hk : f key = some (some it)) (ht : it.Expiration < now.Unix) :
    Get sc now key = Except.ok ((none, false), sc.setShard (shardIndex key)
      (some { items := some (Function.update f key none) })) := by
  simp [Get, Get.read, Get.finish, getShard_eq, hs, hk, ht, deref, ItemMap.lookup,
    ItemMap.delete, bind, Except.bind, pure, Except.pure]

/-- The state in which every slot holds a shard with an initialised, empty map. -/
theorem NewShardedCache_loop {V : Type} (n : Nat) (hn : n ≤ numShards) :
    (List.range n).foldlM NewShardedCache.body
      ({ shards := fun _ => none } : ShardedCache V)
    = Except.ok { shards := fun j =>
        if j.val < n then some { items := ItemMap.make } else none } := by
  induction n with
  | zero => simp [pure, Except.pure]
  | succ n ih =>
    have hlt : n < numShards := hn
    rw [List.range_succ, List.foldlM_append, ih (Nat.le_of_lt hlt)]
    simp only [List.foldlM_cons, List.foldlM_nil, NewShardedCache.body, index_of_lt hlt,
      bind, Except.bind, pure, Except.pure, ShardedCache.setShard]
    congr 2
    funext j
    by_cases hj : j = ⟨n, hlt⟩
    · subst hj
      simp
    · have hne : j.val ≠ n := fun h => hj (Fin.ext h)
      rw [Function.update_noteq hj]
      by_cases h1 : j.val < n
      · simp [h1, Nat.lt_succ_of_lt h1]
      · have h2 : ¬ j.val < n + 1 := by omega
        simp [h1, h2]

theorem NewShardedCache_eq {V : Type} :
    (NewShardedCache : Except Panic (ShardedCache V)) = Except.ok emptyCache := by
  unfold NewShardedCache emptyCache
  rw [NewShardedCache_loop numShards (Nat.le_refl _)]
  congr 2
  funext j
  simp [j.isLt]

theorem clear_loop {V : Type} (l : List (Fin numShards)) (sc : ShardedCache V)
    (h : ∀ i ∈ l, ∃ s, sc.shards i = some s) :
    l.foldlM clear.body sc
    = Except.ok { shards := fun j =>
        if j ∈ l then some { items := ItemMap.make } else sc.shards j } := by
  induction l generalizing sc with
  | nil => simp [pure, Except.pure]
  | cons a l ih =>
    obtain ⟨s, hs⟩ := h a (List.mem_cons_self a l)
    have hstep : clear.body sc a
        = Except.ok (sc.setShard a (some { items := ItemMap.make })) := by
      simp [clear.body, hs, deref, bind, Except.bind, pure, Except.pure]
    rw [List.foldlM_cons, hstep]
    show List.foldlM clear.body (sc.setShard a (some { items := ItemMap.make })) l = _
    rw [ih]
    · congr 2
      funext j
      by_cases hj : j ∈ l
      · simp [hj]
      · by_cases hja : j = a
        · subst hja
          simp [hj, ShardedCache.setShard]
        · simp [hj, hja, ShardedCache.setShard, Function.update_noteq hja]
    · intro i hi
      by_cases hia : i = a
      · subst hia
        exact ⟨{ items := ItemMap.make }, by simp [ShardedCache.setShard]⟩
      · obtain ⟨s', hs'⟩ := h i (List.mem_cons_of_mem a hi)
        exact ⟨s', by simp [ShardedCache.setShard, Function.update_noteq hia, hs']⟩

theorem clear_eq {V : Type} (sc : ShardedCache V) (h : ∀ i, ∃ s, sc.shards i = some s) :
    clear sc = Except.ok emptyCache := by
  unfold clear emptyCache
  have hfun : (fun j : Fin numShards =>
      if j ∈ List.finRange numShards then some ({ items := ItemMap.make } : CacheShard V)
      else sc.shards j) = fun _ => some { items := ItemMap.make } := by
    funext j
    exact if_pos (List.mem_finRange j)
  rw [clear_loop _ sc (fun i _ => h i), hfun]

/-! ## The expiry computation -/

theorem mulSecond_of_small (ttl : Int) (h1 : -9223372036 ≤ ttl) (h2 : ttl ≤ 9223372036) :
    Duration.mulSecond ttl = ttl * 1000000000 := by
  unfold Duration.mulSecond wrapInt64 Second
  have e63 : (2 : Int) ^ 63 = 9223372036854775808 := by norm_num
  have e64 : (2 : Int) ^ 64 = 18446744073709551616 := by norm_num
  rw [e63, e64]
  show (ttl * 1000000000 + 9223372036854775808) % 18446744073709551616
    - 9223372036854775808 = ttl * (1000000000 : Int)
  omega

theorem unix_add_seconds (now : Time) (n : Int) :
    (now.Add (n * 1000000000)).Unix = now.Unix + n := by
  have hdiv : Int.tdiv (n * 1000000000) 1000000000 = n :=
    Int.mul_tdiv_cancel n (by decide)
  have hmod : Int.tmod (n * 1000000000) 1000000000 = 0 := Int.mul_tmod_left n 1000000000
  have h1 : ¬ now.nsec + 0 ≥ 1000000000 := by have := now.nsec_lt; omega
  have h2 : ¬ now.nsec + 0 < 0 := by have := now.nsec_nonneg; omega
  unfold Time.Add Time.Unix
  simp only [hdiv, hmod, dif_neg h1, dif_neg h2]

theorem unix_add_mulSecond (now : Time) (ttl : Int) (h1 : -9223372036 ≤ ttl)
    (h2 : ttl ≤ 9223372036) :
    (now.Add (Duration.mulSecond ttl)).Unix = now.Unix + ttl := by
  rw [mulSecond_of_small ttl h1 h2, unix_add_seconds]

/-! ## Well-formedness is an invariant -/

theorem wellFormed_emptyCache {V : Type} : WellFormed (emptyCache : ShardedCache V) := by
  intro i
  exact ⟨fun _ => none, rfl, fun k h => by cases h⟩

theorem wellFormed_setShard {V : Type} {sc : ShardedCache V} (h : WellFormed sc)
    (i : Fin numShards) (g : GoString → Option (Ptr (Item V))) (hg : ∀ k, g k ≠ some none) :
    WellFormed (sc.setShard i (some { items := some g })) := by
  intro j
  by_cases hj : j = i
  · subst hj
    exact ⟨g, by simp [ShardedCache.setShard], hg⟩
  · obtain ⟨f, hf, hn⟩ := h j
    exact ⟨f, by simp [ShardedCache.setShard, Function.update_noteq hj, hf], hn⟩

theorem Set_ok {V : Type} {sc : ShardedCache V} (h : WellFormed sc) (now : Time)
    (key : GoString) (value : V) (ttl : Int) :
    ∃ sc', Set sc now key value ttl = Except.ok sc' ∧ WellFormed sc' := by
  obtain ⟨f, hf, hn⟩ := h (shardIndex key)
  refine ⟨_, Set_eq now key value ttl hf, wellFormed_setShard h _ _ ?_⟩
  intro k
  by_cases hk : k = key
  · subst hk
    simp
  · rw [Function.update_noteq hk]
    exact hn k

theorem Get_ok {V : Type} {sc : ShardedCache V} (h : WellFormed sc) (now : Time)
    (key : GoString) :
    ∃ r sc', Get sc now key = Except.ok (r, sc') ∧ WellFormed sc' := by
  obtain ⟨f, hf, hn⟩ := h (shardIndex key)
  cases hk : f key with
  | none => exact ⟨_, _, Get_absent now key hf hk, h⟩
  | some p =>
    cases p with
    | none => exact absurd hk (hn key)
    | some it =>
      by_cases ht : it.Expiration < now.Unix
      · refine ⟨_, _, Get_stale now key it hf hk ht, wellFormed_setShard h _ _ ?_⟩
        intro k
        by_cases hkk : k = key
        · subst hkk
          simp
        · rw [Function.update_noteq hkk]
          exact hn k
      · exact ⟨_, _, Get_fresh now key it hf hk (not_lt.mp ht), h⟩

theorem clear_ok {V : Type} {sc : ShardedCache V} (h : WellFormed sc) :
    clear sc = Except.ok emptyCache :=
  clear_eq sc (fun i => by
    obtain ⟨f, hf, _⟩ := h i
    exact ⟨_, hf⟩)

theorem Reachable.wellFormed {V : Type} {sc : ShardedCache V} (h : Reachable sc) :
    WellFormed sc := by
  induction h with
  | new h0 =>
    rw [NewShardedCache_eq] at h0
    cases h0
    exact wellFormed_emptyCache
  | set now key value ttl _ _ hset ih =>
    obtain ⟨sc2, h2, hw⟩ := Set_ok ih now key value ttl
    rw [h2] at hset
    cases hset
    exact hw
  | get now key r _ hget ih =>
    obtain ⟨r2, sc2, h2, hw⟩ := Get_ok ih now key
    rw [h2] at hget
    cases hget
    exact hw
  | clear _ hclear ih =>
    rw [clear_ok ih] at hclear
    cases hclear
    exact wellFormed_emptyCache

theorem reachable_emptyCache {V : Type} : Reachable (emptyCache : ShardedCache V) :=
  Reachable.new NewShardedCache_eq

theorem emptyCache_shard {V : Type} (i : Fin numShards) :
    (emptyCache : ShardedCache V).shards i = some { items := some (fun _ => none) } := rfl

theorem Set_emptyCache {V : Type} (now : Time) (key : GoString) (value : V) (ttl : Int) :
    Set emptyCache now key value ttl = Except.ok (emptyCache.setShard (shardIndex key)
      (some { items := some (Function.update (fun _ => none) key
        (some (some { Value := value,
                      Expiration := (now.Add (Duration.mulSecond ttl)).Unix }))) })) :=
  Set_eq now key value ttl (emptyCache_shard _)

theorem reachable_sampleCache : Reachable sampleCache :=
  Reachable.set clock0 keyK 1 3600 reachable_emptyCache (by decide)
    (Set_emptyCache clock0 keyK 1 3600)

theorem sampleCache_shard :
    sampleCache.shards (shardIndex keyK) =
      some { items := some (Function.update (fun _ => none) keyK
        (some (some { Value := 1,
                      Expiration := (clock0.Add (Duration.mulSecond 3600)).Unix }))) } := by
  simp [sampleCache, ShardedCache.setShard]

/-! ## The entry of a key -/

theorem entry_eq {V : Type} {sc : ShardedCache V} {f : GoString → Option (Ptr (Item V))}
    (key : GoString) (hs : sc.shards (shardIndex key) = some { items := some f }) :
    sc.entry key = (f key).join := by
  unfold ShardedCache.entry
  rw [getShard_eq]
  simp only [hs, ItemMap.lookup]
  cases hk : f key with
  | none => rfl
  | some p => cases p <;> rfl

theorem entry_sampleCache :
    sampleCache.entry keyK = some { Value := 1, Expiration := 1700003600 } := by
  rw [entry_eq keyK sampleCache_shard]
  simp
  decide

/-! ## Set followed by Get -/

theorem setShard_self {V : Type} (sc : ShardedCache V) (i : Fin numShards)
    (s : Ptr (CacheShard V)) : (sc.setShard i s).shards i = s := by
  simp [ShardedCache.setShard]

theorem setShard_other {V : Type} (sc : ShardedCache V) {i j : Fin numShards} (h : j ≠ i)
    (s : Ptr (CacheShard V)) : (sc.setShard i s).shards j = sc.shards j := by
  simp [ShardedCache.setShard, Function.update_noteq h]

/-- After `Set`, a `Get` of the same key at a clock reading not past the stored
expiration returns the value and leaves the cache as it is. -/
theorem Set_then_Get_fresh {V : Type} {sc : ShardedCache V} (h : WellFormed sc)
    (now g : Time) (key : GoString) (value : V) (ttl : Int)
    (hg : g.Unix ≤ (now.Add (Duration.mulSecond ttl)).Unix) :
    ∃ sc', Set sc now key value ttl = Except.ok sc' ∧ WellFormed sc' ∧
      Get sc' g key = Except.ok ((some value, true), sc') := by
  obtain ⟨f, hf, _⟩ := h (shardIndex key)
  obtain ⟨sc', hset, hw⟩ := Set_ok h now key value ttl
  refine ⟨sc', hset, hw, ?_⟩
  rw [Set_eq now key value ttl hf] at hset
  cases hset
  exact Get_fresh g key
    { Value := value, Expiration := (now.Add (Duration.mulSecond ttl)).Unix }
    (setShard_self sc _ _) (Function.update_same _ _ _) hg

/-- After `Set`, a `Get` of the same key at a clock reading past the stored expiration
returns `(nil, false)`. -/
theorem Set_then_Get_stale {V : Type} {sc : ShardedCache V} (h : WellFormed sc)
    (now g : Time) (key : GoString) (value : V) (ttl : Int)
    (hg : (now.Add (Duration.mulSecond ttl)).Unix < g.Unix) :
    ∃ sc' sc'', Set sc now key value ttl = Except.ok sc' ∧
      Get sc' g key = Except.ok ((none, false), sc'') := by
  obtain ⟨f, hf, _⟩ := h (shardIndex key)
  exact ⟨_, _, Set_eq now key value ttl hf, Get_stale g key
    { Value := value, Expiration := (now.Add (Duration.mulSecond ttl)).Unix }
    (setShard_self sc _ _) (Function.update_same _ _ _) hg⟩

/-- Round trip for a TTL whose product with `time.Second` fits an `int64`. -/
theorem Set_then_Get_small {V : Type} {sc : ShardedCache V} (h : WellFormed sc)
    (now : Time) (key : GoString) (value : V) (ttl : Int) (h0 : 0 < ttl)
    (h1 : ttl ≤ 9223372036) :
    ∃ sc', Set sc now key value ttl = Except.ok sc' ∧ WellFormed sc' ∧
      Get sc' now key = Except.ok ((some value, true), sc') := by
  apply Set_then_Get_fresh h
  rw [unix_add_mulSecond now ttl (by omega) h1]
  omega

theorem Set_Set_then_Get_small {V : Type} {sc : ShardedCache V} (h : WellFormed sc)
    (now : Time) (key : GoString) (v1 v2 : V) (ttl : Int) (h0 : 0 < ttl)
    (h1 : ttl ≤ 9223372036) :
    ∃ sc1 sc2, Set sc now key v1 ttl = Except.ok sc1 ∧
      Set sc1 now key v2 ttl = Except.ok sc2 ∧
      Get sc2 now key = Except.ok ((some v2, true), sc2) := by
  obtain ⟨sc1, hs1, hw1⟩ := Set_ok h now key v1 ttl
  obtain ⟨sc2, hs2, _, hg⟩ := Set_then_Get_small hw1 now key v2 ttl h0 h1
  exact ⟨sc1, sc2, hs1, hs2, hg⟩

/-! ## C1: Set/Get round trip -/

/-- C1, evaluated at the failing input: on a new cache at clock reading `clock0`, the
call `Set("k", 1, 9223372037)`, whose TTL is a positive `int64`, stores the expiration
`-7523372037` because `time.Duration(ttl) * time.Second` wraps to a negative `Duration`,
and the `Get("k")` that follows at the same clock reading returns `(nil, false)`, not
`(1, true)`.  The largest `int64` as TTL wraps to a `Duration` of minus one second. -/
theorem C1_roundtrip_overflow :
    Reachable (emptyCache : ShardedCache Int) ∧ IsInt64 9223372037 ∧ (0 : Int) < 9223372037 ∧
    Duration.mulSecond 9223372037 = -9223372036709551616 ∧
    (clock0.Add (Duration.mulSecond 9223372037)).Unix = -7523372037 ∧
    (∃ sc1 sc2, Set (emptyCache : ShardedCache Int) clock0 keyK 1 9223372037 = Except.ok sc1 ∧
      Get sc1 clock0 keyK = Except.ok ((none, false), sc2)) ∧
    Duration.mulSecond 9223372036854775807 = -1000000000 :=
  ⟨reachable_emptyCache, by decide, by decide, by decide, by decide,
    Set_then_Get_stale wellFormed_emptyCache clock0 clock0 keyK 1 9223372037 (by decide),
    by decide⟩

/-! ## C2: the visibility rule of Get -/

/-- C2: in a reachable cache, `Get(k)` at clock reading `now` returns `(v, true)` exactly
when the shard routed for `k` holds an entry for `k` with value `v` and
`now <= Expiration`; when there is no such entry (key absent, or `now > Expiration`) it
returns `(nil, false)`.  So a returned value is never past its expiration. -/
theorem C2_get_visibility {V : Type} (sc : ShardedCache V) (h : Reachable sc) (now : Time)
    (key : GoString) :
    (∀ v : V, (∃ sc', Get sc now key = Except.ok ((some v, true), sc')) ↔
      ∃ it, sc.entry key = some it ∧ it.Value = v ∧ now.Unix ≤ it.Expiration) ∧
    ((¬ ∃ it, sc.entry key = some it ∧ now.Unix ≤ it.Expiration) →
      ∃ sc', Get sc now key = Except.ok ((none, false), sc')) ∧
    (∀ v found sc' it, Get sc now key = Except.ok ((v, found), sc') → found = true →
      sc.entry key = some it → now.Unix ≤ it.Expiration) := by
  obtain ⟨f, hf, hn⟩ := h.wellFormed (shardIndex key)
  have he := entry_eq key hf
  cases hk : f key with
  | none =>
    have hg := Get_absent now key hf hk
    rw [hk] at he
    refine ⟨fun v => ⟨?_, ?_⟩, fun _ => ⟨_, hg⟩, ?_⟩
    · rintro ⟨sc', h'⟩
      rw [hg] at h'
      cases h'
    · rintro ⟨it, hit, _⟩
      rw [he] at hit
      cases hit
    · intro v found sc' it h' hfound
      rw [hg] at h'
      cases h'
      cases hfound
  | some p =>
    cases p with
    | none => exact absurd hk (hn key)
    | some it0 =>
      rw [hk] at he
      have he0 : sc.entry key = some it0 := he
      by_cases ht : it0.Expiration < now.Unix
      · have hg := Get_stale now key it0 hf hk ht
        refine ⟨fun v => ⟨?_, ?_⟩, fun _ => ⟨_, hg⟩, ?_⟩
        · rintro ⟨sc', h'⟩
          rw [hg] at h'
          cases h'
        · rintro ⟨it, hit, _, hle⟩
          rw [he0] at hit
          cases hit
          exact absurd ht (not_lt.mpr hle)
        · intro v found sc' it h' hfound
          rw [hg] at h'
          cases h'
          cases hfound
      · have hle : now.Unix ≤ it0.Expiration := not_lt.mp ht
        have hg := Get_fresh now key it0 hf hk hle
        refine ⟨fun v => ⟨?_, ?_⟩, fun hno => absurd ⟨it0, he0, hle⟩ hno, ?_⟩
        · rintro ⟨sc', h'⟩
          rw [hg] at h'
          cases h'
          exact ⟨it0, he0, rfl, hle⟩
        · rintro ⟨it, hit, hv, _⟩
          rw [he0] at hit
          cases hit
          subst hv
          exact ⟨_, hg⟩
        · intro v found sc' it _ _ hit
          rw [he0] at hit
          cases hit
          exact hle

/-- C2 at a concrete input: the cache after `Set("k", 1, 3600)` at `clock0`, read at
`clock0`. -/
theorem C2_get_visibility_witness :
    Reachable sampleCache ∧
    ∃ sc', Get sampleCache clock0 keyK = Except.ok ((some 1, true), sc') :=
  ⟨reachable_sampleCache,
    ((C2_get_visibility sampleCache reachable_sampleCache clock0 keyK).1 1).mpr
      ⟨_, entry_sampleCache, rfl, by decide⟩⟩

/-! ## C3: overwrite -/

/-- C3, evaluated at the failing input: on a new cache at clock reading `clock0`, the
calls `Set("k", 1, 9223372037)`, `Set("k", 2, 9223372037)` and `Get("k")`, the TTL being
a positive `int64`, end with `(nil, false)`, not `(2, true)`: the TTL times
`time.Second` wraps to a negative `Duration`, so the entry is stored already expired. -/
theorem C3_overwrite_overflow :
    Reachable (emptyCache : ShardedCache Int) ∧ IsInt64 9223372037 ∧ (0 : Int) < 9223372037 ∧
    ∃ sc1 sc2 sc3, Set (emptyCache : ShardedCache Int) clock0 keyK 1 9223372037 = Except.ok sc1 ∧
      Set sc1 clock0 keyK 2 9223372037 = Except.ok sc2 ∧
      Get sc2 clock0 keyK = Except.ok ((none, false), sc3) := by
  obtain ⟨sc1, hs1, hw1⟩ := Set_ok (wellFormed_emptyCache : WellFormed (emptyCache : ShardedCache Int))
    clock0 keyK 1 9223372037
  obtain ⟨sc2, sc3, hs2, hg⟩ := Set_then_Get_stale hw1 clock0 clock0 keyK 2 9223372037
    (by decide)
  exact ⟨reachable_emptyCache, by decide, by decide, sc1, sc2, sc3, hs1, hs2, hg⟩

/-! ## Sequences of calls -/

theorem run_nil {V : Type} (sc : ShardedCache V) : run sc [] = Except.ok sc := rfl

theorem run_cons {V : Type} (sc : ShardedCache V) (c : Call V) (cs : List (Call V)) :
    run sc (c :: cs) = (step sc c).bind fun sc' => run sc' cs := by
  unfold run
  rw [List.foldlM_cons]
  rfl

theorem run_cons_ok {V : Type} {sc sc' : ShardedCache V} {c : Call V} (cs : List (Call V))
    (h : step sc c = Except.ok sc') : run sc (c :: cs) = run sc' cs := by
  rw [run_cons, h]
  rfl

theorem run_append_ok {V : Type} {sc sc' : ShardedCache V} {cs : List (Call V)}
    (ds : List (Call V)) (h : run sc cs = Except.ok sc') :
    run sc (cs ++ ds) = run sc' ds := by
  unfold run at h ⊢
  rw [List.foldlM_append, h]
  rfl

theorem step_ok {V : Type} {sc : ShardedCache V} (h : WellFormed sc) (c : Call V) :
    ∃ sc', step sc c = Except.ok sc' ∧ WellFormed sc' := by
  cases c with
  | set now key value ttl => exact Set_ok h now key value ttl
  | get now key =>
    obtain ⟨r, sc', hg, hw⟩ := Get_ok h now key
    exact ⟨sc', by simp [step, hg, Except.map], hw⟩
  | clear => exact ⟨_, clear_ok h, wellFormed_emptyCache⟩

theorem run_ok {V : Type} (calls : List (Call V)) :
    ∀ {sc : ShardedCache V}, WellFormed sc →
      ∃ sc', run sc calls = Except.ok sc' ∧ WellFormed sc' := by
  induction calls with
  | nil => exact fun {sc} h => ⟨sc, rfl, h⟩
  | cons c cs ih =>
    intro sc h
    obtain ⟨sc1, h1, hw1⟩ := step_ok h c
    obtain ⟨sc2, h2, hw2⟩ := ih hw1
    exact ⟨sc2, by rw [run_cons_ok cs h1, h2], hw2⟩

theorem Get_emptyCache {V : Type} (now : Time) (key : GoString) :
    Get (emptyCache : ShardedCache V) now key = Except.ok ((none, false), emptyCache) :=
  Get_absent now key (emptyCache_shard _) rfl

/-! ## C4: clear empties all keys -/

/-- C4: after any finite sequence of `Set` calls (any keys, values, TTLs and clock
readings) on a new cache, `clear()` succeeds and leaves an empty map in each of the 256
shards, and then `Get(k)` returns `(nil, false)` for every key at every clock reading. -/
theorem C4_clear_empties {V : Type} (sets : List (Time × GoString × V × Int)) :
    ∃ sc0 sc1 sc2 : ShardedCache V, NewShardedCache = Except.ok sc0 ∧
      run sc0 (setCalls sets) = Except.ok sc1 ∧ clear sc1 = Except.ok sc2 ∧
      (∀ i : Fin numShards, sc2.shards i = some { items := some (fun _ => none) }) ∧
      numShards = 256 ∧
      ∀ (now : Time) (key : GoString), Get sc2 now key = Except.ok ((none, false), sc2) := by
  obtain ⟨sc1, h1, hw1⟩ := run_ok (setCalls sets)
    (wellFormed_emptyCache : WellFormed (emptyCache : ShardedCache V))
  exact ⟨emptyCache, sc1, emptyCache, NewShardedCache_eq, h1, clear_ok hw1,
    emptyCache_shard, rfl, Get_emptyCache⟩

/-! ## C7: routing -/

/-- C7: for every key, the empty string included, `getShard` selects exactly one slot
`i` with `0 <= i < 256`, never an index out of range, and the slot is the same in every
cache state (the clock is not read); the empty key selects slot 197. -/
theorem C7_routing_total {V : Type} (key : GoString) :
    (∃! i : Fin numShards, ∀ sc : ShardedCache V, getShard sc key = Except.ok i) ∧
    (∀ (sc : ShardedCache V) (i : Fin numShards), getShard sc key = Except.ok i →
      i.val < 256 ∧ i.val = Sum32 (Write New32a key) % 256) ∧
    (∀ sc sc' : ShardedCache V, getShard sc key = getShard sc' key) ∧
    (∀ sc : ShardedCache V, ∃ i, getShard sc [] = Except.ok i ∧ i.val = 197) := by
  refine ⟨⟨shardIndex key, fun sc => getShard_eq sc key, ?_⟩, ?_, ?_, ?_⟩
  · intro j hj
    have h := hj emptyCache
    rw [getShard_eq] at h
    cases h
    rfl
  · intro sc i hi
    rw [getShard_eq] at hi
    cases hi
    exact ⟨(shardIndex key).isLt, rfl⟩
  · intro sc sc'
    rw [getShard_eq, getShard_eq]
  · intro sc
    exact ⟨shardIndex [], getShard_eq sc [], by decide⟩

/-! ## C8: the operations never fail -/

/-- C8: `NewShardedCache` returns, and in every cache state reachable from it no slot is
nil, every shard has an initialised map and no stored `*Item` is nil; hence `Set`, `Get`
and `clear` return without a panic for every key, value, TTL and clock reading, and `Get`
returns either `(nil, false)` or a value with `true`. -/
theorem C8_never_fails {V : Type} (sc : ShardedCache V) (h : Reachable sc) :
    (∃ sc0 : ShardedCache V, NewShardedCache = Except.ok sc0) ∧
    (∀ i : Fin numShards, ∃ f : GoString → Option (Ptr (Item V)),
      sc.shards i = some { items := some f } ∧ ∀ k, f k ≠ some none) ∧
    (∀ (now : Time) (key : GoString) (value : V) (ttl : Int),
      ∃ sc', Set sc now key value ttl = Except.ok sc') ∧
    (∀ (now : Time) (key : GoString), ∃ r sc', Get sc now key = Except.ok (r, sc') ∧
      (r = (none, false) ∨ ∃ v, r = (some v, true))) ∧
    (∃ sc', clear sc = Except.ok sc') := by
  have hw := h.wellFormed
  refine ⟨⟨_, NewShardedCache_eq⟩, hw, ?_, ?_, ⟨_, clear_ok hw⟩⟩
  · intro now key value ttl
    obtain ⟨sc', hs, _⟩ := Set_ok hw now key value ttl
    exact ⟨sc', hs⟩
  · intro now key
    obtain ⟨f, hf, hn⟩ := hw (shardIndex key)
    cases hk : f key with
    | none => exact ⟨_, _, Get_absent now key hf hk, Or.inl rfl⟩
    | some p =>
      cases p with
      | none => exact absurd hk (hn key)
      | some it =>
        by_cases ht : it.Expiration < now.Unix
        · exact ⟨_, _, Get_stale now key it hf hk ht, Or.inl rfl⟩
        · exact ⟨_, _, Get_fresh now key it hf hk (not_lt.mp ht), Or.inr ⟨_, rfl⟩⟩

/-- C8 at a concrete input: the cache after `Set("k", 1, 3600)` at `clock0`. -/
theorem C8_never_fails_witness :
    Reachable sampleCache ∧
    (∃ sc', Set sampleCache clock0 keyK 2 (-5) = Except.ok sc') ∧
    (∃ r sc', Get sampleCache clockLate keyK = Except.ok (r, sc') ∧
      (r = (none, false) ∨ ∃ v, r = (some v, true))) ∧
    (∃ sc', clear sampleCache = Except.ok sc') :=
  ⟨reachable_sampleCache,
    (C8_never_fails sampleCache reachable_sampleCache).2.2.1 clock0 keyK 2 (-5),
    (C8_never_fails sampleCache reachable_sampleCache).2.2.2.1 clockLate keyK,
    (C8_never_fails sampleCache reachable_sampleCache).2.2.2.2⟩

/-! ## The effect of the operations on the entries -/

theorem entry_setShard_self {V : Type} (sc : ShardedCache V)
    (f : GoString → Option (Ptr (Item V))) (key : GoString) (x : Option (Ptr (Item V))) :
    (sc.setShard (shardIndex key)
      (some { items := some (Function.update f key x) })).entry key = x.join := by
  rw [entry_eq key (setShard_self sc _ _), Function.update_same]

theorem entry_setShard_other {V : Type} {sc : ShardedCache V} (hw : WellFormed sc)
    {f : GoString → Option (Ptr (Item V))} {key k : GoString}
    (x : Option (Ptr (Item V)))
    (hs : sc.shards (shardIndex key) = some { items := some f }) (hne : k ≠ key) :
    (sc.setShard (shardIndex key)
      (some { items := some (Function.update f key x) })).entry k = sc.entry k := by
  by_cases hi : shardIndex k = shardIndex key
  · have h1 : (sc.setShard (shardIndex key)
        (some { items := some (Function.update f key x) })).shards (shardIndex k)
        = some { items := some (Function.update f key x) } := by
      rw [hi]
      exact setShard_self sc _ _
    have h2 : sc.shards (shardIndex k) = some { items := some f } := by
      rw [hi]
      exact hs
    rw [entry_eq k h1, entry_eq k h2, Function.update_noteq hne]
  · obtain ⟨f2, hf2, _⟩ := hw (shardIndex k)
    have h1 : (sc.setShard (shardIndex key)
        (some { items := some (Function.update f key x) })).shards (shardIndex k)
        = some { items := some f2 } := by
      rw [setShard_other sc hi]
      exact hf2
    rw [entry_eq k h1, entry_eq k hf2]

theorem entry_emptyCache {V : Type} (k : GoString) :
    (emptyCache : ShardedCache V).entry k = none := by
  rw [entry_eq k (emptyCache_shard _)]
  rfl

/-- The effect of `Set` on the entries: the entry of `key` is the new item, every other
entry is as before. -/
theorem Set_entry {V : Type} {sc : ShardedCache V} (hw : WellFormed sc) (now : Time)
    (key : GoString) (value : V) (ttl : Int) :
    ∃ sc', Set sc now key value ttl = Except.ok sc' ∧ WellFormed sc' ∧
      sc'.entry key = some { Value := value,
                             Expiration := (now.Add (Duration.mulSecond ttl)).Unix } ∧
      ∀ k, k ≠ key → sc'.entry k = sc.entry k := by
  obtain ⟨f, hf, _⟩ := hw (shardIndex key)
  obtain ⟨sc', hset, hw'⟩ := Set_ok hw now key value ttl
  refine ⟨sc', hset, hw', ?_, ?_⟩
  · rw [Set_eq now key value ttl hf] at hset
    cases hset
    rw [entry_setShard_self]
    rfl
  · intro k hk
    rw [Set_eq now key value ttl hf] at hset
    cases hset
    exact entry_setShard_other hw _ hf hk

/-- The result of `Get` from the entry of the key, and its effect on the entries: a stale
entry of `key` is removed, and nothing else changes. -/
theorem Get_entry {V : Type} {sc : ShardedCache V} (hw : WellFormed sc) (now : Time)
    (key : GoString) :
    ∃ r sc', Get sc now key = Except.ok (r, sc') ∧ WellFormed sc' ∧
      (∀ k, k ≠ key → sc'.entry k = sc.entry k) ∧
      ((sc.entry key = none ∧ r = (none, false) ∧ sc' = sc) ∨
       (∃ it, sc.entry key = some it ∧ now.Unix ≤ it.Expiration ∧
          r = (some it.Value, true) ∧ sc' = sc) ∨
       (∃ it, sc.entry key = some it ∧ it.Expiration < now.Unix ∧
          r = (none, false) ∧ sc'.entry key = none)) := by
  obtain ⟨f, hf, hn⟩ := hw (shardIndex key)
  have he := entry_eq key hf
  cases hk : f key with
  | none =>
    rw [hk] at he
    exact ⟨_, _, Get_absent now key hf hk, hw, fun _ _ => rfl, Or.inl ⟨he, rfl, rfl⟩⟩
  | some p =>
    cases p with
    | none => exact absurd hk (hn key)
    | some it =>
      rw [hk] at he
      have he0 : sc.entry key = some it := he
      by_cases ht : it.Expiration < now.Unix
      · obtain ⟨r, sc', hg, hw'⟩ := Get_ok hw now key
        have hg2 := Get_stale now key it hf hk ht
        rw [hg2] at hg
        cases hg
        refine ⟨_, _, hg2, hw', ?_, Or.inr (Or.inr ⟨it, he0, ht, rfl, ?_⟩)⟩
        · intro k hne
          exact entry_setShard_other hw _ hf hne
        · rw [entry_setShard_self]
          rfl
      · exact ⟨_, _, Get_fresh now key it hf hk (not_lt.mp ht), hw, fun _ _ => rfl,
          Or.inr (Or.inl ⟨it, he0, not_lt.mp ht, rfl, rfl⟩)⟩

theorem Get_of_entry_fresh {V : Type} {sc : ShardedCache V} (hw : WellFormed sc)
    (now : Time) (key : GoString) (it : Item V) (he : sc.entry key = some it)
    (ht : now.Unix ≤ it.Expiration) :
    Get sc now key = Except.ok ((some it.Value, true), sc) := by
  obtain ⟨r, sc', hg, _, _, h | ⟨it2, he2, _, hr, hsc⟩ | ⟨it2, he2, ht2, _, _⟩⟩ :=
    Get_entry hw now key
  · rw [he] at h
    cases h.1
  · rw [he] at he2
    cases he2
    rw [hg, hr, hsc]
  · rw [he] at he2
    cases he2
    exact absurd ht2 (not_lt.mpr ht)

theorem Get_of_entry_stale {V : Type} {sc : ShardedCache V} (hw : WellFormed sc)
    (now : Time) (key : GoString) (it : Item V) (he : sc.entry key = some it)
    (ht : it.Expiration < now.Unix) :
    ∃ sc', Get sc now key = Except.ok ((none, false), sc') := by
  obtain ⟨r, sc', hg, _, _, h | ⟨it2, he2, ht2, _, _⟩ | ⟨it2, _, _, hr, _⟩⟩ :=
    Get_entry hw now key
  · exact ⟨sc', by rw [hg, h.2.1]⟩
  · rw [he] at he2
    cases he2
    exact absurd ht (not_lt.mpr ht2)
  · exact ⟨sc', by rw [hg, hr]⟩

theorem Get_of_entry_none {V : Type} {sc : ShardedCache V} (hw : WellFormed sc)
    (now : Time) (key : GoString) (he : sc.entry key = none) :
    Get sc now key = Except.ok ((none, false), sc) := by
  obtain ⟨r, sc', hg, _, _, h | ⟨it2, he2, _, _, _⟩ | ⟨it2, he2, _, _, _⟩⟩ :=
    Get_entry hw now key
  · rw [hg, h.2.1, h.2.2]
  · rw [he] at he2
    cases he2
  · rw [he] at he2
    cases he2

/-- A call that is not on `key` leaves the entry of `key` as it is, or (`clear`) removes
it. -/
theorem step_frame {V : Type} {sc : ShardedCache V} (hw : WellFormed sc) (c : Call V)
    (key : GoString) (hc : ¬ c.onKey key) :
    ∃ sc', step sc c = Except.ok sc' ∧ WellFormed sc' ∧
      (sc'.entry key = sc.entry key ∨ sc'.entry key = none) := by
  cases c with
  | set now k value ttl =>
    obtain ⟨sc', hs, hw', _, hfr⟩ := Set_entry hw now k value ttl
    exact ⟨sc', hs, hw', Or.inl (hfr key (fun h => hc h.symm))⟩
  | get now k =>
    obtain ⟨r, sc', hg, hw', hfr, _⟩ := Get_entry hw now k
    exact ⟨sc', by simp [step, hg, Except.map], hw', Or.inl (hfr key (fun h => hc h.symm))⟩
  | clear => exact ⟨_, clear_ok hw, wellFormed_emptyCache, Or.inr (entry_emptyCache key)⟩

theorem run_frame {V : Type} (cs : List (Call V)) (key : GoString)
    (hcs : ∀ c ∈ cs, ¬ c.onKey key) :
    ∀ {sc : ShardedCache V}, WellFormed sc →
      ∃ sc', run sc cs = Except.ok sc' ∧ WellFormed sc' ∧
        (sc'.entry key = sc.entry key ∨ sc'.entry key = none) := by
  induction cs with
  | nil => exact fun {sc} hw => ⟨sc, rfl, hw, Or.inl rfl⟩
  | cons c cs ih =>
    intro sc hw
    obtain ⟨sc1, h1, hw1, hf1⟩ := step_frame hw c key (hcs c (List.mem_cons_self c cs))
    obtain ⟨sc2, h2, hw2, hf2⟩ := ih (fun d hd => hcs d (List.mem_cons_of_mem c hd)) hw1
    refine ⟨sc2, by rw [run_cons_ok cs h1, h2], hw2, ?_⟩
    rcases hf2 with hf2 | hf2
    · rcases hf1 with hf1 | hf1
      · exact Or.inl (hf2.trans hf1)
      · exact Or.inr (hf2.trans hf1)
    · exact Or.inr hf2

/-! ## Clock readings and Unix seconds -/

theorem unix_le_of_unixNano_le {s g : Time} (h : s.UnixNano ≤ g.UnixNano) :
    s.Unix ≤ g.Unix := by
  have h1 := s.nsec_nonneg
  have h2 := g.nsec_lt
  unfold Time.UnixNano at h
  unfold Time.Unix
  omega

theorem unix_lt_of_two_seconds {t0 t1 : Time}
    (h : 2000000000 ≤ t1.UnixNano - t0.UnixNano) : t0.Unix + 1 < t1.Unix := by
  have h1 := t0.nsec_nonneg
  have h2 := t1.nsec_lt
  unfold Time.UnixNano at h
  unfold Time.Unix
  omega

theorem unix_le_of_within {s g : Time} (n : Int)
    (h : g.UnixNano - s.UnixNano < n * 1000000000) : g.Unix ≤ s.Unix + n := by
  have h1 := g.nsec_nonneg
  have h2 := s.nsec_lt
  unfold Time.UnixNano at h
  unfold Time.Unix
  omega

/-! ## C5: expiration -/

/-- C5 fails as stated: `Set("k", 1, 1)` on a new cache at `clockA` (0.9 s into a
second) stores the expiration `1700000001`; the `Get("k")` at `clockB`, 1.05 s later, reads
the Unix second `1700000001`, which is not past the expiration, and returns `(1, true)`. -/
theorem C5_expiration_counterexample :
    1000000000 < clockB.UnixNano - clockA.UnixNano ∧
    ((Set (emptyCache : ShardedCache Int) clockA keyK 1 1).bind fun sc1 =>
      (Get sc1 clockB keyK).map Prod.fst) = Except.ok (some 1, true) := by
  obtain ⟨sc1, hs, _, hg⟩ := Set_then_Get_fresh
    (wellFormed_emptyCache : WellFormed (emptyCache : ShardedCache Int))
    clockA clockB keyK 1 1 (by decide)
  refine ⟨by decide, ?_⟩
  rw [hs]
  show (Get sc1 clockB keyK).map Prod.fst = _
  rw [hg]
  rfl

/-- C5 as amended: in a reachable cache `Set(k, v, 1)` at clock reading `t0` returns;
if the Unix second of `t1` is more than one past the Unix second of `t0` (which holds
whenever `t1 - t0 >= 2 s`), then after any calls that are not on `k` the call `Get(k)` at
`t1` returns `(nil, false)`; and if it is at most one past, `Get(k)` at `t1` right after
the `Set` still returns `(v, true)`. -/
theorem C5_expiration_amended {V : Type} (sc : ShardedCache V) (h : Reachable sc)
    (t0 t1 : Time) (key : GoString) (value : V) :
    ∃ sc1, Set sc t0 key value 1 = Except.ok sc1 ∧
      (t0.Unix + 1 < t1.Unix → ∀ mid : List (Call V), (∀ c ∈ mid, ¬ c.onKey key) →
        ∃ sc2 sc3, run sc1 mid = Except.ok sc2 ∧
          Get sc2 t1 key = Except.ok ((none, false), sc3)) ∧
      (t1.Unix ≤ t0.Unix + 1 → Get sc1 t1 key = Except.ok ((some value, true), sc1)) ∧
      (2000000000 ≤ t1.UnixNano - t0.UnixNano → t0.Unix + 1 < t1.Unix) := by
  obtain ⟨sc1, hs, hw1, he, _⟩ := Set_entry h.wellFormed t0 key value 1
  rw [unix_add_mulSecond t0 1 (by decide) (by decide)] at he
  refine ⟨sc1, hs, ?_, ?_, unix_lt_of_two_seconds⟩
  · intro ht mid hmid
    obtain ⟨sc2, hr, hw2, hf⟩ := run_frame mid key hmid hw1
    rcases hf with hf | hf
    · obtain ⟨sc3, hg⟩ := Get_of_entry_stale hw2 t1 key _ (hf.trans he) ht
      exact ⟨sc2, sc3, hr, hg⟩
    · exact ⟨sc2, sc2, hr, Get_of_entry_none hw2 t1 key hf⟩
  · intro ht
    exact Get_of_entry_fresh hw1 t1 key _ he ht

/-- C5 as amended, at a concrete input: `Set("k", 7, 1)` at `clock0` on the sample
cache, then a `Set` and a `Get` on another key and a `clear`, then `Get("k")` 100 s
later. -/
theorem C5_expiration_amended_witness :
    Reachable sampleCache ∧
    ∃ sc1, Set sampleCache clock0 keyK 7 1 = Except.ok sc1 ∧
      ∃ sc2 sc3, run sc1 [Call.set clockA [97] 3 5, Call.get clockB [97], Call.clear]
          = Except.ok sc2 ∧
        Get sc2 clockLate keyK = Except.ok ((none, false), sc3) := by
  obtain ⟨sc1, hs, hstale, _, _⟩ :=
    C5_expiration_amended sampleCache reachable_sampleCache clock0 clockLate keyK 7
  exact ⟨reachable_sampleCache, sc1, hs, hstale (by decide) _ (by decide)⟩

/-! ## C6: zero or negative TTL -/

/-- C6 fails as stated: `Set("k", 1, 0)` on a new cache at `clock0` stores the expiration
`1700000000`, and the `Get("k")` that follows in the same second returns `(1, true)`,
because `Get` tests `now > Expiration`. -/
theorem C6_zero_ttl_counterexample :
    IsInt64 0 ∧ (0 : Int) ≤ 0 ∧ clock0.UnixNano ≤ clock0.UnixNano ∧
    ((Set (emptyCache : ShardedCache Int) clock0 keyK 1 0).bind fun sc1 =>
      (Get sc1 clock0 keyK).map Prod.fst) = Except.ok (some 1, true) := by
  obtain ⟨sc1, hs, _, hg⟩ := Set_then_Get_fresh
    (wellFormed_emptyCache : WellFormed (emptyCache : ShardedCache Int))
    clock0 clock0 keyK 1 0 (by decide)
  refine ⟨by decide, by decide, by decide, ?_⟩
  rw [hs]
  show (Get sc1 clock0 keyK).map Prod.fst = _
  rw [hg]
  rfl

/-- C6 as amended: in a reachable cache `Set(k, v, t)` at clock reading `s` returns for
every TTL `t`.  Let the next call be `Get(k)` at a clock reading `g` not earlier than `s`.
For `-9223372036 <= t < 0` it returns `(nil, false)`.  For `t = 0` it returns
`(nil, false)` when `g` lies in a later Unix second than `s`, and `(v, true)` when it lies
in the same second. -/
theorem C6_nonpositive_ttl_amended {V : Type} (sc : ShardedCache V) (h : Reachable sc)
    (s g : Time) (key : GoString) (value : V) (ttl : Int)
    (hsg : s.UnixNano ≤ g.UnixNano) :
    ∃ sc1, Set sc s key value ttl = Except.ok sc1 ∧
      (-9223372036 ≤ ttl → ttl < 0 →
        ∃ sc2, Get sc1 g key = Except.ok ((none, false), sc2)) ∧
      (ttl = 0 → s.Unix < g.Unix →
        ∃ sc2, Get sc1 g key = Except.ok ((none, false), sc2)) ∧
      (ttl = 0 → s.Unix = g.Unix →
        Get sc1 g key = Except.ok ((some value, true), sc1)) := by
  have hle := unix_le_of_unixNano_le hsg
  obtain ⟨sc1, hs, hw1, he, _⟩ := Set_entry h.wellFormed s key value ttl
  refine ⟨sc1, hs, ?_, ?_, ?_⟩
  · intro h1 h2
    rw [unix_add_mulSecond s ttl h1 (by omega)] at he
    exact Get_of_entry_stale hw1 g key _ he (by show s.Unix + ttl < g.Unix; omega)
  · intro h0 hlt
    subst h0
    rw [unix_add_mulSecond s 0 (by decide) (by decide)] at he
    exact Get_of_entry_stale hw1 g key _ he (by show s.Unix + 0 < g.Unix; omega)
  · intro h0 heq
    subst h0
    rw [unix_add_mulSecond s 0 (by decide) (by decide)] at he
    exact Get_of_entry_fresh hw1 g key _ he (by show g.Unix ≤ s.Unix + 0; omega)

/-- C6 as amended, at a concrete input: `Set("k", 7, -5)` at `clockA` on the sample
cache, then `Get("k")` at `clockB`. -/
theorem C6_nonpositive_ttl_amended_witness :
    Reachable sampleCache ∧ clockA.UnixNano ≤ clockB.UnixNano ∧
    ∃ sc1, Set sampleCache clockA keyK 7 (-5) = Except.ok sc1 ∧
      ∃ sc2, Get sc1 clockB keyK = Except.ok ((none, false), sc2) := by
  obtain ⟨sc1, hs, hneg, _, _⟩ :=
    C6_nonpositive_ttl_amended sampleCache reachable_sampleCache clockA clockB keyK 7 (-5)
      (by decide)
  exact ⟨reachable_sampleCache, by decide, sc1, hs, hneg (by decide) (by decide)⟩

/-! ## The keys of the benchmark -/

theorem decimalValue_decimal (n : Nat) : decimalValue (decimal n) = n := by
  unfold decimalValue decimal
  by_cases h0 : n = 0
  · subst h0
    rfl
  · rw [if_neg h0, List.map_map]
    have hmap : List.map ((fun b : Fin 256 => b.val - 48) ∘ fun d => Fin.ofNat (48 + d))
        (Nat.digits 10 n).reverse = List.map id (Nat.digits 10 n).reverse := by
      apply List.map_congr_left
      intro d hd
      have hlt : d < 10 := Nat.digits_lt_base (by decide) (List.mem_reverse.mp hd)
      show (48 + d) % 256 - 48 = d
      omega
    rw [hmap, List.map_id, List.reverse_reverse, Nat.ofDigits_digits]

theorem decimal_injective : Function.Injective decimal :=
  Function.LeftInverse.injective decimalValue_decimal

theorem benchKey_injective : Function.Injective benchKey := by
  intro i j h
  exact decimal_injective (List.append_cancel_left h)

/-! ## C9: the benchmark scenario -/

/-- After the `Set` calls of `BenchmarkSet` on a new cache, run in any order in which no
index occurs twice, the entry of each key holds its index and expires 3600 s after the
Unix second of its `Set`. -/
theorem benchmark_entries (order : List (Nat × Time)) :
    (order.map Prod.fst).Nodup →
    ∃ sc1 : ShardedCache Int, run emptyCache (benchmarkSetCalls order) = Except.ok sc1 ∧
      WellFormed sc1 ∧
      ∀ p ∈ order, sc1.entry (benchKey p.1)
        = some { Value := (p.1 : Int), Expiration := p.2.Unix + 3600 } := by
  induction order using List.reverseRecOn with
  | nil =>
    intro _
    exact ⟨emptyCache, rfl, wellFormed_emptyCache, fun p hp => absurd hp (List.not_mem_nil p)⟩
  | append_singleton l a ih =>
    intro hnd
    rw [List.map_append, List.nodup_append] at hnd
    obtain ⟨hl, _, hdis⟩ := hnd
    obtain ⟨sc1, hr, hw1, hent⟩ := ih hl
    obtain ⟨sc2, hs, hw2, he, hfr⟩ := Set_entry hw1 a.2 (benchKey a.1) (a.1 : Int) 3600
    rw [unix_add_mulSecond a.2 3600 (by decide) (by decide)] at he
    refine ⟨sc2, ?_, hw2, ?_⟩
    · unfold benchmarkSetCalls
      rw [List.map_append]
      have hr2 : run emptyCache (List.map (fun p : Nat × Time =>
          Call.set p.2 (benchKey p.1) (p.1 : Int) 3600) l) = Except.ok sc1 := hr
      rw [run_append_ok _ hr2]
      exact (run_cons_ok [] (show step sc1 (Call.set a.2 (benchKey a.1) (a.1 : Int) 3600)
        = Except.ok sc2 from hs)).trans rfl
    · intro p hp
      rcases List.mem_append.mp hp with hpl | hpa
      · have hne : p.1 ≠ a.1 := by
          intro heq
          exact hdis (List.mem_map_of_mem Prod.fst hpl)
            (by rw [heq]; exact List.mem_singleton_self _)
        rw [hfr (benchKey p.1) (fun hk => hne (benchKey_injective hk))]
        exact hent p hpl
      · rw [List.mem_singleton.mp hpa]
        exact he

/-- When every `Get` of `BenchmarkGet` returns its index and leaves the cache as it is,
the results are the indices in the order of the calls. -/
theorem BenchmarkGet_loop (sc1 : ShardedCache Int) (gets : List (Nat × Time))
    (hget : ∀ q ∈ gets,
      Get sc1 q.2 (benchKey q.1) = Except.ok ((some (q.1 : Int), true), sc1)) :
    ∀ acc : List (Option Int × Bool),
      gets.foldlM BenchmarkGet.body (acc, sc1)
        = Except.ok (acc ++ gets.map (fun q => (some (q.1 : Int), true)), sc1) := by
  induction gets with
  | nil =>
    intro acc
    simp [pure, Except.pure]
  | cons q qs ih =>
    intro acc
    have hstep : BenchmarkGet.body (acc, sc1) q
        = Except.ok (acc ++ [(some (q.1 : Int), true)], sc1) := by
      simp [BenchmarkGet.body, hget q (List.mem_cons_self q qs), bind, Except.bind, pure,
        Except.pure]
    rw [List.foldlM_cons, hstep]
    show List.foldlM BenchmarkGet.body (acc ++ [(some (q.1 : Int), true)], sc1) qs = _
    rw [ih (fun r hr => hget r (List.mem_cons_of_mem q hr))]
    simp

/-- C9: on `NewShardedCache()`, after `Set("key<i>", i, 3600)` has run once for every
`i` in `[0, 2000000)`, in any order and at any clock readings, every index has had its
`Set`, and `Get("key<i>")` at a clock reading less than 3600 s after the one of the
`Set` of `i` returns `(i, true)` and leaves the cache as it is; so the `Get` calls of
`BenchmarkGet`, in any order, return `(i, true)` each. -/
theorem C9_benchmark (order : List (Nat × Time))
    (hperm : (order.map Prod.fst).Perm (List.range totalOperations)) :
    ∃ sc0 sc1 : ShardedCache Int, NewShardedCache = Except.ok sc0 ∧
      BenchmarkSet sc0 order = Except.ok sc1 ∧
      (∀ i, i < totalOperations → ∃ t, (i, t) ∈ order) ∧
      (∀ p ∈ order, ∀ g : Time, g.UnixNano - p.2.UnixNano < 3600 * 1000000000 →
        Get sc1 g (benchKey p.1) = Except.ok ((some (p.1 : Int), true), sc1)) ∧
      (∀ gets : List (Nat × Time),
        (∀ q ∈ gets, ∃ p ∈ order, p.1 = q.1 ∧
          q.2.UnixNano - p.2.UnixNano < 3600 * 1000000000) →
        BenchmarkGet sc1 gets
          = Except.ok (gets.map (fun q => (some (q.1 : Int), true)), sc1)) := by
  have hnd : (order.map Prod.fst).Nodup := hperm.nodup_iff.mpr (List.nodup_range _)
  obtain ⟨sc1, hr, hw1, hent⟩ := benchmark_entries order hnd
  have hget : ∀ p ∈ order, ∀ g : Time, g.UnixNano - p.2.UnixNano < 3600 * 1000000000 →
      Get sc1 g (benchKey p.1) = Except.ok ((some (p.1 : Int), true), sc1) := by
    intro p hp g hg
    exact Get_of_entry_fresh hw1 g (benchKey p.1) _ (hent p hp) (unix_le_of_within 3600 hg)
  refine ⟨emptyCache, sc1, NewShardedCache_eq, hr, ?_, hget, ?_⟩
  · intro i hi
    have hmem : i ∈ order.map Prod.fst := hperm.mem_iff.mpr (List.mem_range.mpr hi)
    obtain ⟨p, hp, hpi⟩ := List.mem_map.mp hmem
    exact ⟨p.2, by rw [← hpi]; exact hp⟩
  · intro gets hq
    have hall : ∀ q ∈ gets,
        Get sc1 q.2 (benchKey q.1) = Except.ok ((some (q.1 : Int), true), sc1) := by
      intro q hqm
      obtain ⟨p, hp, hpq, hlt⟩ := hq q hqm
      have := hget p hp q.2 hlt
      rw [hpq] at this
      exact this
    have := BenchmarkGet_loop sc1 gets hall []
    rw [List.nil_append] at this
    exact this

theorem sampleOrder_perm :
    (sampleOrder.map Prod.fst).Perm (List.range totalOperations) := by
  unfold sampleOrder
  rw [List.map_map]
  exact List.Perm.of_eq (List.map_id'' (fun _ => rfl) _)

theorem sampleOrder_mem : (1999999, clock0) ∈ sampleOrder := by
  unfold sampleOrder
  exact List.mem_map.mpr ⟨1999999, List.mem_range.mpr (by unfold totalOperations; omega), rfl⟩

/-- C9 at a concrete input: the goroutines run in the order of their index within the
second of `clock0`, and `Get("key1999999")` is issued 100 s later. -/
theorem C9_benchmark_witness :
    (sampleOrder.map Prod.fst).Perm (List.range totalOperations) ∧
    ∃ sc1 : ShardedCache Int, BenchmarkSet emptyCache sampleOrder = Except.ok sc1 ∧
      Get sc1 clockLate (benchKey 1999999) = Except.ok ((some 1999999, true), sc1) := by
  obtain ⟨sc0, sc1, h0, hr, _, hget, _⟩ := C9_benchmark sampleOrder sampleOrder_perm
  rw [NewShardedCache_eq] at h0
  cases h0
  exact ⟨sampleOrder_perm, sc1, hr, hget (1999999, clock0) sampleOrder_mem clockLate
    (by decide)⟩

/-! ## C10: a Set between the two locked sections of Get -/

theorem Get_read_found {V : Type} {sc : ShardedCache V}
    {f : GoString → Option (Ptr (Item V))} (key : GoString) (it : Item V)
    (hs : sc.shards (shardIndex key) = some { items := some f })
    (hk : f key = some (some it)) :
    Get.read sc key = Except.ok (shardIndex key, some it, true) := by
  simp [Get.read, getShard_eq, hs, hk, deref, ItemMap.lookup, bind, Except.bind, pure,
    Except.pure]

theorem Get_finish_stale {V : Type} {sc : ShardedCache V}
    {f : GoString → Option (Ptr (Item V))} (now : Time) (key : GoString)
    (shard : Fin numShards) (it : Item V)
    (hs : sc.shards shard = some { items := some f }) (ht : it.Expiration < now.Unix) :
    Get.finish sc now key shard (some it) true = Except.ok ((none, false),
      sc.setShard shard (some { items := some (Function.update f key none) })) := by
  simp [Get.finish, hs, ht, deref, ItemMap.delete, bind, Except.bind, pure, Except.pure]

/-- When `Get(key)` has read a stale entry and another caller's `Set(key, v, ttl)` runs
before the delete, the delete removes the entry that this `Set` stored, and a later
`Get(key)` finds nothing at any clock reading. -/
theorem lazy_delete_race {V : Type} {sc : ShardedCache V} (hw : WellFormed sc)
    (now : Time) (key : GoString) (it : Item V) (he : sc.entry key = some it)
    (ht : it.Expiration < now.Unix) (v : V) (ttl : Int) :
    ∃ shard scB scC, Get.read sc key = Except.ok (shard, some it, true) ∧
      Set sc now key v ttl = Except.ok scB ∧
      scB.entry key
        = some { Value := v, Expiration := (now.Add (Duration.mulSecond ttl)).Unix } ∧
      Get.finish scB now key shard (some it) true = Except.ok ((none, false), scC) ∧
      scC.entry key = none ∧
      ∀ g : Time, Get scC g key = Except.ok ((none, false), scC) := by
  obtain ⟨f, hf, hn⟩ := hw (shardIndex key)
  have hk : f key = some (some it) := by
    have h1 := entry_eq key hf
    rw [he] at h1
    cases hfk : f key with
    | none => rw [hfk] at h1; cases h1
    | some p =>
      cases p with
      | none => exact absurd hfk (hn key)
      | some it2 =>
        rw [hfk] at h1
        cases h1
        rfl
  obtain ⟨scB, hs, hwB, heB, _⟩ := Set_entry hw now key v ttl
  obtain ⟨fB, hfB, hnB⟩ := hwB (shardIndex key)
  have hfin := Get_finish_stale now key (shardIndex key) it hfB ht
  have hwC := wellFormed_setShard hwB (shardIndex key) (Function.update fB key none)
    (by
      intro k
      by_cases hkk : k = key
      · subst hkk
        simp
      · rw [Function.update_noteq hkk]
        exact hnB k)
  have heC := entry_setShard_self scB fB key none
  exact ⟨shardIndex key, scB, _, Get_read_found key it hf hk, hs, heB, hfin, heC,
    fun g => Get_of_entry_none hwC g key heC⟩

/-- C10, evaluated at the failing input: the cache holds `"k"` with expiration
`1700000001` (from `Set("k", 1, 1)` at `clock0`).  At `clockLate`, 100 s later, `Get("k")`
reads this stale entry in its first locked section; `Set("k", 2, 3600)` then stores an
entry that expires at `1700003700`; the delete of `Get` then removes that entry; and a
`Get("k")` at `clockLate`, well within the new TTL, returns `(nil, false)`, not
`(2, true)`. -/
theorem C10_lazy_delete_race :
    ∃ scA shard scB scC, ∃ item : Item Int,
      Set (emptyCache : ShardedCache Int) clock0 keyK 1 1 = Except.ok scA ∧
      Get.read scA keyK = Except.ok (shard, some item, true) ∧
      item.Expiration = 1700000001 ∧ item.Expiration < clockLate.Unix ∧
      Set scA clockLate keyK 2 3600 = Except.ok scB ∧
      scB.entry keyK = some { Value := 2, Expiration := 1700003700 } ∧
      clockLate.Unix ≤ 1700003700 ∧
      Get.finish scB clockLate keyK shard (some item) true = Except.ok ((none, false), scC) ∧
      scC.entry keyK = none ∧
      Get scC clockLate keyK = Except.ok ((none, false), scC) := by
  obtain ⟨scA, hsA, hwA, heA, _⟩ := Set_entry
    (wellFormed_emptyCache : WellFormed (emptyCache : ShardedCache Int)) clock0 keyK 1 1
  obtain ⟨shard, scB, scC, hread, hsB, heB, hfin, heC, hget⟩ :=
    lazy_delete_race hwA clockLate keyK _ heA (by decide) 2 3600
  exact ⟨scA, shard, scB, scC, _, hsA, hread, by decide, by decide, hsB,
    heB.trans (by rw [show (clockLate.Add (Duration.mulSecond 3600)).Unix = 1700003700
      by decide]), by decide, hfin, heC, hget clockLate⟩

/-! ## C12: the expiry computation -/

/-- The expiration that `Set` stores when `ttl * time.Second` fits an `int64`: the Unix
second of the clock reading plus `ttl`. -/
theorem Set_expiration_small {V : Type} {sc : ShardedCache V} (hw : WellFormed sc)
    (now : Time) (key : GoString) (value : V) (ttl : Int) (h1 : -9223372036 ≤ ttl)
    (h2 : ttl ≤ 9223372036) :
    ∃ sc', Set sc now key value ttl = Except.ok sc' ∧
      sc'.entry key = some { Value := value, Expiration := now.Unix + ttl } := by
  obtain ⟨sc', hs, _, he, _⟩ := Set_entry hw now key value ttl
  rw [unix_add_mulSecond now ttl h1 h2] at he
  exact ⟨sc', hs, he⟩

/-- C12, evaluated at the failing input: on a new cache at clock reading `clock0`
(Unix second 1700000000) the call `Set("k", 1, 9223372037)`, whose TTL is an `int64`,
stores the expiration `-7523372037`, which is not `1700000000 + 9223372037`: the product
`time.Duration(ttl) * time.Second` has wrapped to `-9223372036709551616` nanoseconds. -/
theorem C12_expiry_overflow :
    IsInt64 9223372037 ∧ clock0.Unix = 1700000000 ∧
    Duration.mulSecond 9223372037 = -9223372036709551616 ∧
    (∃ sc1, Set (emptyCache : ShardedCache Int) clock0 keyK 1 9223372037 = Except.ok sc1 ∧
      sc1.entry keyK = some { Value := 1, Expiration := -7523372037 }) ∧
    (-7523372037 : Int) ≠ 1700000000 + 9223372037 := by
  obtain ⟨sc1, hs, _, he, _⟩ := Set_entry
    (wellFormed_emptyCache : WellFormed (emptyCache : ShardedCache Int))
    clock0 keyK 1 9223372037
  rw [show (clock0.Add (Duration.mulSecond 9223372037)).Unix = -7523372037 by decide] at he
  exact ⟨by decide, by decide, by decide, ⟨sc1, hs, he⟩, by decide⟩

/-! ## C13: routing is FNV-1a modulo the shard count -/

theorem FNV1a32_go_eq (data : GoString) (h : Nat) : FNV1a32.go h data = Write h data := by
  induction data generalizing h with
  | nil => rfl
  | cons b bs ih =>
    show FNV1a32.go (((h ^^^ b.val) * 16777619) % 2 ^ 32) bs = _
    rw [ih]
    rfl

theorem Sum32_eq_FNV1a32 (key : GoString) : Sum32 (Write New32a key) = FNV1a32 key :=
  (FNV1a32_go_eq key 2166136261).symm

/-- C13: for every key, read as its sequence of bytes, `getShard` selects the slot
`FNV1a32(key) mod 256`, where `FNV1a32` starts from `h = 2166136261` and sets
`h := ((h xor b) * 16777619) mod 2^32` for each byte in order; the empty key selects slot
197, and the key `"a"` has hash `0xE40C292C` and selects slot 44. -/
theorem C13_routing_fnv1a {V : Type} (sc : ShardedCache V) (key : GoString) :
    (∃ i : Fin numShards, getShard sc key = Except.ok i ∧ i.val = FNV1a32 key % 256) ∧
    (∃ i : Fin numShards, getShard sc [] = Except.ok i ∧ i.val = 197) ∧
    FNV1a32 keyA = 0xE40C292C ∧
    (∃ i : Fin numShards, getShard sc keyA = Except.ok i ∧ i.val = 44) := by
  refine ⟨⟨shardIndex key, getShard_eq sc key, ?_⟩, ⟨shardIndex [], getShard_eq sc [], ?_⟩,
    ?_, ⟨shardIndex keyA, getShard_eq sc keyA, ?_⟩⟩
  · show Sum32 (Write New32a key) % numShards = FNV1a32 key % 256
    rw [Sum32_eq_FNV1a32]
    rfl
  · decide
  · decide
  · decide

/-! ## The physical contents of the shards -/

theorem stored_of_shard {V : Type} {sc : ShardedCache V} {i : Fin numShards}
    {f : GoString → Option (Ptr (Item V))} (hs : sc.shards i = some { items := some f })
    (k : GoString) : sc.stored i k = f k := by
  simp [ShardedCache.stored, hs]

theorem stored_setShard_self {V : Type} (sc : ShardedCache V) (i : Fin numShards)
    (g : GoString → Option (Ptr (Item V))) (k : GoString) :
    (sc.setShard i (some { items := some g })).stored i k = g k :=
  stored_of_shard (setShard_self sc i _) k

theorem stored_setShard_other {V : Type} (sc : ShardedCache V) {i j : Fin numShards}
    (h : j ≠ i) (s : Ptr (CacheShard V)) (k : GoString) :
    (sc.setShard i s).stored j k = sc.stored j k := by
  simp [ShardedCache.stored, setShard_other sc h]

theorem stored_emptyCache {V : Type} (i : Fin numShards) (k : GoString) :
    (emptyCache : ShardedCache V).stored i k = none := rfl

theorem entry_eq_stored {V : Type} {sc : ShardedCache V} (hw : WellFormed sc)
    (key : GoString) : sc.entry key = (sc.stored (shardIndex key) key).join := by
  obtain ⟨f, hf, _⟩ := hw (shardIndex key)
  rw [entry_eq key hf, stored_of_shard hf]

/-- The three ways `Get` can go in a well-formed cache, with the cache it leaves. -/
theorem Get_cases {V : Type} {sc : ShardedCache V} (hw : WellFormed sc) (now : Time)
    (key : GoString) :
    ∃ f, sc.shards (shardIndex key) = some { items := some f } ∧
      ((f key = none ∧ Get sc now key = Except.ok ((none, false), sc)) ∨
       (∃ it, f key = some (some it) ∧ now.Unix ≤ it.Expiration ∧
          Get sc now key = Except.ok ((some it.Value, true), sc)) ∨
       (∃ it, f key = some (some it) ∧ it.Expiration < now.Unix ∧
          Get sc now key = Except.ok ((none, false), sc.setShard (shardIndex key)
            (some { items := some (Function.update f key none) })))) := by
  obtain ⟨f, hf, hn⟩ := hw (shardIndex key)
  refine ⟨f, hf, ?_⟩
  cases hk : f key with
  | none => exact Or.inl ⟨rfl, Get_absent now key hf hk⟩
  | some p =>
    cases p with
    | none => exact absurd hk (hn key)
    | some it =>
      by_cases ht : it.Expiration < now.Unix
      · exact Or.inr (Or.inr ⟨it, rfl, ht, Get_stale now key it hf hk ht⟩)
      · exact Or.inr (Or.inl ⟨it, rfl, not_lt.mp ht, Get_fresh now key it hf hk
          (not_lt.mp ht)⟩)

/-- Replacing what the map of one slot holds for one key changes nothing else. -/
theorem frame_setShard_update {V : Type} {sc : ShardedCache V} {i : Fin numShards}
    {f : GoString → Option (Ptr (Item V))} (hs : sc.shards i = some { items := some f })
    (key : GoString) (x : Option (Ptr (Item V))) :
    (∀ j, j ≠ i → (sc.setShard i
        (some { items := some (Function.update f key x) })).shards j = sc.shards j) ∧
    (∀ j k, k ≠ key → (sc.setShard i
        (some { items := some (Function.update f key x) })).stored j k = sc.stored j k) := by
  refine ⟨fun j hj => setShard_other sc hj _, ?_⟩
  intro j k hk
  by_cases hj : j = i
  · subst hj
    rw [stored_setShard_self, Function.update_noteq hk, stored_of_shard hs]
  · exact stored_setShard_other sc hj _ k

/-! ## C14: the effect of Get on the state -/

/-- C14: in a reachable cache `Get(k)` at clock reading `now` returns, and if `k` has
an entry with `now > Expiration` the key is no longer in the map of its shard afterwards,
while if `k` is absent or has an entry with `now <= Expiration` the cache state after the
call is the state before it. -/
theorem C14_get_effect {V : Type} (sc : ShardedCache V) (h : Reachable sc) (now : Time)
    (key : GoString) :
    ∃ r sc', Get sc now key = Except.ok (r, sc') ∧
      ((∃ it, sc.entry key = some it ∧ it.Expiration < now.Unix) →
        sc'.stored (shardIndex key) key = none ∧ sc'.entry key = none) ∧
      ((sc.entry key = none ∨ ∃ it, sc.entry key = some it ∧ now.Unix ≤ it.Expiration) →
        sc' = sc) := by
  have hw := h.wellFormed
  obtain ⟨f, hf, hc⟩ := Get_cases hw now key
  have he := entry_eq key hf
  rcases hc with ⟨hk, hg⟩ | ⟨it, hk, ht, hg⟩ | ⟨it, hk, ht, hg⟩
  · rw [hk] at he
    refine ⟨_, _, hg, ?_, fun _ => rfl⟩
    rintro ⟨it, hit, _⟩
    rw [he] at hit
    cases hit
  · rw [hk] at he
    refine ⟨_, _, hg, ?_, fun _ => rfl⟩
    rintro ⟨it2, hit, hlt⟩
    rw [he] at hit
    cases hit
    exact absurd hlt (not_lt.mpr ht)
  · rw [hk] at he
    refine ⟨_, _, hg, fun _ => ⟨?_, ?_⟩, ?_⟩
    · rw [stored_setShard_self, Function.update_same]
    · rw [entry_setShard_self]
      rfl
    · rintro (hnone | ⟨it2, hit, hle⟩)
      · rw [he] at hnone
        cases hnone
      · rw [he] at hit
        cases hit
        exact absurd ht (not_lt.mpr hle)

/-- C14 at a concrete input: the sample cache holds `"k"` until second 1700003600; a
`Get("k")` at second 1700003601 removes the key. -/
theorem C14_get_effect_witness :
    Reachable sampleCache ∧
    ∃ r sc', Get sampleCache clockExpired keyK = Except.ok (r, sc') ∧
      sc'.stored (shardIndex keyK) keyK = none ∧ sc'.entry keyK = none := by
  obtain ⟨r, sc', hg, hstale, _⟩ := C14_get_effect sampleCache reachable_sampleCache
    clockExpired keyK
  exact ⟨reachable_sampleCache, r, sc', hg, hstale ⟨_, entry_sampleCache, by decide⟩⟩

/-! ## C15: the frame of Set and Get -/

/-- What `Set` leaves untouched: the other slots, and in every map what is held for any
other key. -/
theorem Set_frame {V : Type} {sc : ShardedCache V} (hw : WellFormed sc) (now : Time)
    (key : GoString) (value : V) (ttl : Int) :
    ∃ sc', Set sc now key value ttl = Except.ok sc' ∧
      sc'.stored (shardIndex key) key ≠ none ∧
      (∀ j, j ≠ shardIndex key → sc'.shards j = sc.shards j) ∧
      (∀ j k, k ≠ key → sc'.stored j k = sc.stored j k) := by
  obtain ⟨f, hf, _⟩ := hw (shardIndex key)
  obtain ⟨h1, h2⟩ := frame_setShard_update hf key (some (some
    { Value := value, Expiration := (now.Add (Duration.mulSecond ttl)).Unix }))
  refine ⟨_, Set_eq now key value ttl hf, ?_, h1, h2⟩
  rw [stored_setShard_self, Function.update_same]
  exact fun h => by cases h

/-- What `Get` leaves untouched, and what it does to its own key: the key's entry is as
before or gone. -/
theorem Get_frame {V : Type} {sc : ShardedCache V} (hw : WellFormed sc) (now : Time)
    (key : GoString) :
    ∃ r sc', Get sc now key = Except.ok (r, sc') ∧
      (∀ j, j ≠ shardIndex key → sc'.shards j = sc.shards j) ∧
      (∀ j k, k ≠ key → sc'.stored j k = sc.stored j k) ∧
      (∀ j, sc'.stored j key = sc.stored j key ∨ sc'.stored j key = none) := by
  obtain ⟨f, hf, hc⟩ := Get_cases hw now key
  rcases hc with ⟨_, hg⟩ | ⟨it, _, _, hg⟩ | ⟨it, _, _, hg⟩
  · exact ⟨_, _, hg, fun _ _ => rfl, fun _ _ _ => rfl, fun _ => Or.inl rfl⟩
  · exact ⟨_, _, hg, fun _ _ => rfl, fun _ _ _ => rfl, fun _ => Or.inl rfl⟩
  · obtain ⟨h1, h2⟩ := frame_setShard_update hf key none
    refine ⟨_, _, hg, h1, h2, ?_⟩
    intro j
    by_cases hj : j = shardIndex key
    · subst hj
      exact Or.inr (by rw [stored_setShard_self, Function.update_same])
    · exact Or.inl (stored_setShard_other sc hj _ key)

/-- C15: in a reachable cache `Set(k, ...)` and `Get(k)` return and leave every slot
other than the one `k` routes to as it was, and in every map (the one of `k` included)
what is held for any other key `k'`, fresh or stale, as it was.  So when a call makes a
key that was in a map absent from it, the call is a `Get` on that very key or
`clear()`; and when a call changes what a map holds for a key at all, the call is on that
key or is `clear()`. -/
theorem C15_frame {V : Type} (sc : ShardedCache V) (h : Reachable sc) (now : Time)
    (key : GoString) (value : V) (ttl : Int) :
    (∃ sc', Set sc now key value ttl = Except.ok sc' ∧
      (∀ j, j ≠ shardIndex key → sc'.shards j = sc.shards j) ∧
      (∀ j k, k ≠ key → sc'.stored j k = sc.stored j k)) ∧
    (∃ r sc', Get sc now key = Except.ok (r, sc') ∧
      (∀ j, j ≠ shardIndex key → sc'.shards j = sc.shards j) ∧
      (∀ j k, k ≠ key → sc'.stored j k = sc.stored j k)) ∧
    (∀ (c : Call V) (sc' : ShardedCache V) (j : Fin numShards) (k : GoString),
      step sc c = Except.ok sc' → sc.stored j k ≠ none → sc'.stored j k = none →
      c = Call.clear ∨ ∃ t, c = Call.get t k) ∧
    (∀ (c : Call V) (sc' : ShardedCache V) (j : Fin numShards) (k : GoString),
      step sc c = Except.ok sc' → sc'.stored j k ≠ sc.stored j k →
      c = Call.clear ∨ c.onKey k) := by
  have hw := h.wellFormed
  refine ⟨?_, ?_, ?_, ?_⟩
  rotate_left 3
  · intro c sc' j k hstep hne
    cases c with
    | set t k2 v2 ttl2 =>
      obtain ⟨sc2, hs, _, _, h2⟩ := Set_frame hw t k2 v2 ttl2
      have h3 : Set sc t k2 v2 ttl2 = Except.ok sc' := hstep
      rw [hs] at h3
      cases h3
      by_cases hk : k = k2
      · exact Or.inr hk.symm
      · exact absurd (h2 j k hk) hne
    | get t k2 =>
      obtain ⟨r, sc2, hg, _, h2, _⟩ := Get_frame hw t k2
      have h3 : (Get sc t k2).map Prod.snd = Except.ok sc' := hstep
      rw [hg] at h3
      cases h3
      by_cases hk : k = k2
      · exact Or.inr hk.symm
      · exact absurd (h2 j k hk) hne
    | clear => exact Or.inl rfl
  · obtain ⟨sc', hs, _, h1, h2⟩ := Set_frame hw now key value ttl
    exact ⟨sc', hs, h1, h2⟩
  · obtain ⟨r, sc', hg, h1, h2, _⟩ := Get_frame hw now key
    exact ⟨r, sc', hg, h1, h2⟩
  · intro c sc' j k hstep hin hout
    cases c with
    | set t k2 v2 ttl2 =>
      obtain ⟨sc2, hs, hself, _, h2⟩ := Set_frame hw t k2 v2 ttl2
      have : sc' = sc2 := by
        have h3 : Set sc t k2 v2 ttl2 = Except.ok sc' := hstep
        rw [hs] at h3
        cases h3
        rfl
      subst this
      exfalso
      by_cases hk : k = k2
      · subst hk
        by_cases hj : j = shardIndex k
        · subst hj
          exact hself hout
        · obtain ⟨f, hf, _⟩ := hw (shardIndex k)
          have h4 := Set_eq t k v2 ttl2 hf
          rw [hs] at h4
          cases h4
          rw [stored_setShard_other sc hj] at hout
          exact hin hout
      · rw [h2 j k hk] at hout
        exact hin hout
    | get t k2 =>
      obtain ⟨r, sc2, hg, _, h2, _⟩ := Get_frame hw t k2
      have : sc' = sc2 := by
        have h3 : (Get sc t k2).map Prod.snd = Except.ok sc' := hstep
        rw [hg] at h3
        cases h3
        rfl
      subst this
      by_cases hk : k = k2
      · subst hk
        exact Or.inr ⟨t, rfl⟩
      · rw [h2 j k hk] at hout
        exact absurd hout hin
    | clear => exact Or.inl rfl

/-- C15 at a concrete input: `Set("a", 2, 5)` and `Get("a")` on the sample cache, which
holds `"k"`. -/
theorem C15_frame_witness :
    Reachable sampleCache ∧
    (∃ sc', Set sampleCache clockA keyA 2 5 = Except.ok sc' ∧
      sc'.stored (shardIndex keyK) keyK = sampleCache.stored (shardIndex keyK) keyK) ∧
    (∃ r sc', Get sampleCache clockLate keyA = Except.ok (r, sc') ∧
      sc'.stored (shardIndex keyK) keyK = sampleCache.stored (shardIndex keyK) keyK) := by
  obtain ⟨⟨sc1, hs, _, hs2⟩, _, _, _⟩ :=
    C15_frame sampleCache reachable_sampleCache clockA keyA 2 5
  obtain ⟨_, ⟨r3, sc3, hg3, _, hg4⟩, _, _⟩ :=
    C15_frame sampleCache reachable_sampleCache clockLate keyA 2 5
  exact ⟨reachable_sampleCache, ⟨sc1, hs, hs2 _ _ (by decide)⟩,
    ⟨r3, sc3, hg3, hg4 _ _ (by decide)⟩⟩

/-! ## C16: the shard-placement invariant -/

theorem placed_emptyCache {V : Type} : Placed (emptyCache : ShardedCache V) :=
  fun i k h => absurd (stored_emptyCache i k) h

theorem placed_setShard_update {V : Type} {sc : ShardedCache V} (hp : Placed sc)
    {f : GoString → Option (Ptr (Item V))} (key : GoString)
    (hs : sc.shards (shardIndex key) = some { items := some f })
    (x : Option (Ptr (Item V))) :
    Placed (sc.setShard (shardIndex key)
      (some { items := some (Function.update f key x) })) := by
  intro j k hne
  by_cases hk : k = key
  · subst hk
    by_cases hj : j = shardIndex k
    · exact hj.symm
    · rw [stored_setShard_other sc hj] at hne
      exact hp j k hne
  · rw [(frame_setShard_update hs key x).2 j k hk] at hne
    exact hp j k hne

theorem Set_placed {V : Type} {sc sc' : ShardedCache V} (hw : WellFormed sc)
    (hp : Placed sc) {now : Time} {key : GoString} {value : V} {ttl : Int}
    (hs : Set sc now key value ttl = Except.ok sc') : Placed sc' := by
  obtain ⟨f, hf, _⟩ := hw (shardIndex key)
  rw [Set_eq now key value ttl hf] at hs
  cases hs
  exact placed_setShard_update hp key hf _

theorem Get_placed {V : Type} {sc sc' : ShardedCache V} (hw : WellFormed sc)
    (hp : Placed sc) {now : Time} {key : GoString} {r : Option V × Bool}
    (hg : Get sc now key = Except.ok (r, sc')) : Placed sc' := by
  obtain ⟨f, hf, hc⟩ := Get_cases hw now key
  rcases hc with ⟨_, hg2⟩ | ⟨it, _, _, hg2⟩ | ⟨it, _, _, hg2⟩
  · rw [hg2] at hg
    cases hg
    exact hp
  · rw [hg2] at hg
    cases hg
    exact hp
  · rw [hg2] at hg
    cases hg
    exact placed_setShard_update hp key hf none

theorem Reachable.placed {V : Type} {sc : ShardedCache V} (h : Reachable sc) :
    Placed sc := by
  induction h with
  | new h0 =>
    rw [NewShardedCache_eq] at h0
    cases h0
    exact placed_emptyCache
  | set now key value ttl hr _ hset ih => exact Set_placed hr.wellFormed ih hset
  | get now key r hr hget ih => exact Get_placed hr.wellFormed ih hget
  | clear hr hclear _ =>
    rw [clear_ok hr.wellFormed] at hclear
    cases hclear
    exact placed_emptyCache

theorem Reachable.step {V : Type} {sc sc' : ShardedCache V} (h : Reachable sc)
    (c : Call V) (hc : ∀ t k v ttl, c = Call.set t k v ttl → IsInt64 ttl)
    (hstep : step sc c = Except.ok sc') : Reachable sc' := by
  cases c with
  | set t k v ttl => exact Reachable.set t k v ttl h (hc t k v ttl rfl) hstep
  | get t k =>
    obtain ⟨r, sc2, hg, _⟩ := Get_ok h.wellFormed t k
    have h3 : (Get sc t k).map Prod.snd = Except.ok sc' := hstep
    rw [hg] at h3
    cases h3
    exact Reachable.get t k r h hg
  | clear => exact Reachable.clear h hstep

/-- C16: in every cache state reachable from `NewShardedCache` by `Set`, `Get` and
`clear`, every key that the map of slot `i` holds routes to slot `i`.  Hence a key is in
the map of at most one slot, the array has 256 slots, and when a key is in a map before
and after a call it is in the same slot: no entry moves between shards. -/
theorem C16_placement {V : Type} (sc : ShardedCache V) (h : Reachable sc) :
    (∀ (i : Fin numShards) (k : GoString), sc.stored i k ≠ none →
      getShard sc k = Except.ok i) ∧
    (∀ (i j : Fin numShards) (k : GoString), sc.stored i k ≠ none →
      sc.stored j k ≠ none → i = j) ∧
    numShards = 256 ∧
    (∀ (c : Call V) (sc' : ShardedCache V) (i j : Fin numShards) (k : GoString),
      step sc c = Except.ok sc' → sc.stored i k ≠ none → sc'.stored j k ≠ none →
      i = j) := by
  have hp := h.placed
  have hw := h.wellFormed
  refine ⟨?_, ?_, rfl, ?_⟩
  · intro i k hk
    rw [getShard_eq, hp i k hk]
  · intro i j k hi hj
    rw [← hp i k hi, ← hp j k hj]
  · intro c sc' i j k hstep hi hj
    have hp' : Placed sc' := by
      cases c with
      | set t k2 v2 ttl2 => exact Set_placed hw hp hstep
      | get t k2 =>
        obtain ⟨r, sc2, hg, _⟩ := Get_ok hw t k2
        have h3 : (Get sc t k2).map Prod.snd = Except.ok sc' := hstep
        rw [hg] at h3
        cases h3
        exact Get_placed hw hp hg
      | clear =>
        have h3 : clear sc = Except.ok sc' := hstep
        rw [clear_ok hw] at h3
        cases h3
        exact placed_emptyCache
    rw [← hp i k hi, ← hp' j k hj]

/-- C16 at a concrete input: the sample cache holds `"k"` in slot 234 only. -/
theorem C16_placement_witness :
    Reachable sampleCache ∧
    sampleCache.stored (shardIndex keyK) keyK ≠ none ∧
    (∀ j : Fin numShards, sampleCache.stored j keyK ≠ none → j.val = 234) := by
  have hin : sampleCache.stored (shardIndex keyK) keyK ≠ none := by
    rw [stored_of_shard sampleCache_shard, Function.update_same]
    exact fun h => by cases h
  refine ⟨reachable_sampleCache, hin, ?_⟩
  intro j hj
  have := (C16_placement sampleCache reachable_sampleCache).2.1 _ _ _ hin hj
  rw [← this]
  decide

/-! ## C17: sharding is observationally transparent -/

theorem simulates_isUnion {V : Type} {sc : ShardedCache V} {m : RefCache V}
    (h : Simulates sc m) : IsUnion sc m := by
  obtain ⟨hw, hp, hm⟩ := h
  intro k v e
  rw [hm k, entry_eq_stored hw k]
  constructor
  · intro hk
    refine ⟨shardIndex k, ?_⟩
    cases hs : sc.stored (shardIndex k) k with
    | none => rw [hs] at hk; cases hk
    | some p =>
      cases p with
      | none => rw [hs] at hk; cases hk
      | some it =>
        rw [hs] at hk
        cases it
        cases hk
        rfl
  · rintro ⟨i, hi⟩
    have hidx : shardIndex k = i := hp i k (by rw [hi]; exact fun h => by cases h)
    rw [hidx, hi]
    rfl

theorem simulates_new {V : Type} :
    Simulates (emptyCache : ShardedCache V) RefCache.new :=
  ⟨wellFormed_emptyCache, placed_emptyCache, fun k => by rw [entry_emptyCache]; rfl⟩

theorem Set_simulates {V : Type} {sc : ShardedCache V} {m : RefCache V}
    (h : Simulates sc m) (now : Time) (key : GoString) (value : V) (ttl : Int) :
    ∃ sc', Set sc now key value ttl = Except.ok sc' ∧
      Simulates sc' (m.Set now key value ttl) := by
  obtain ⟨hw, hp, hm⟩ := h
  obtain ⟨sc', hs, hw', he, hfr⟩ := Set_entry hw now key value ttl
  refine ⟨sc', hs, hw', Set_placed hw hp hs, ?_⟩
  intro k
  unfold RefCache.Set
  by_cases hk : k = key
  · subst hk
    rw [Function.update_same, he]
    rfl
  · rw [Function.update_noteq hk, hfr k hk]
    exact hm k

theorem Get_simulates {V : Type} {sc : ShardedCache V} {m : RefCache V}
    (h : Simulates sc m) (now : Time) (key : GoString) :
    ∃ sc', Get sc now key = Except.ok ((m.Get now key).1, sc') ∧
      Simulates sc' (m.Get now key).2 := by
  obtain ⟨hw, hp, hm⟩ := h
  obtain ⟨r, sc', hg, hw', hfr, hc⟩ := Get_entry hw now key
  have hp' := Get_placed hw hp hg
  have hmk := hm key
  rcases hc with ⟨he, hr, hsc⟩ | ⟨it, he, ht, hr, hsc⟩ | ⟨it, he, ht, hr, he'⟩
  · rw [he] at hmk
    have hmk2 : m key = none := hmk
    have hget : m.Get now key = ((none, false), m) := by
      unfold RefCache.Get
      rw [hmk2]
    rw [hget]
    subst hsc
    subst hr
    exact ⟨sc', hg, hw, hp, hm⟩
  · rw [he] at hmk
    have hmk2 : m key = some (it.Value, it.Expiration) := hmk
    have hget : m.Get now key = ((some it.Value, true), m) := by
      unfold RefCache.Get
      rw [hmk2]
      exact if_neg (not_lt.mpr ht)
    rw [hget]
    subst hsc
    subst hr
    exact ⟨sc', hg, hw, hp, hm⟩
  · rw [he] at hmk
    have hmk2 : m key = some (it.Value, it.Expiration) := hmk
    have hget : m.Get now key = ((none, false), Function.update m key none) := by
      unfold RefCache.Get
      rw [hmk2]
      exact if_pos ht
    rw [hget]
    subst hr
    refine ⟨sc', hg, hw', hp', ?_⟩
    intro k
    show Function.update m key none k = _
    by_cases hk : k = key
    · subst hk
      rw [Function.update_same, he']
      rfl
    · rw [Function.update_noteq hk, hfr k hk]
      exact hm k

theorem observe_simulates {V : Type} (calls : List (Call V)) :
    ∀ (sc : ShardedCache V) (m : RefCache V), Simulates sc m →
      ∃ sc', observe sc calls = Except.ok ((m.observe calls).1, sc') ∧
        Simulates sc' (m.observe calls).2 := by
  induction calls with
  | nil => exact fun sc m h => ⟨sc, rfl, h⟩
  | cons c cs ih =>
    intro sc m h
    cases c with
    | set now key value ttl =>
      obtain ⟨sc1, hs, h1⟩ := Set_simulates h now key value ttl
      obtain ⟨sc2, ho, h2⟩ := ih sc1 _ h1
      refine ⟨sc2, ?_, h2⟩
      show (Set sc now key value ttl).bind (fun sc' => observe sc' cs) = _
      rw [hs]
      exact ho
    | get now key =>
      obtain ⟨sc1, hg, h1⟩ := Get_simulates h now key
      obtain ⟨sc2, ho, h2⟩ := ih sc1 _ h1
      refine ⟨sc2, ?_, h2⟩
      show (Get sc now key).bind (fun p =>
        (observe p.2 cs).bind fun q => Except.ok (p.1 :: q.1, q.2)) = _
      rw [hg]
      show (observe sc1 cs).bind (fun q => Except.ok ((m.Get now key).1 :: q.1, q.2)) = _
      rw [ho]
      rfl
    | clear =>
      have hc := clear_ok h.1
      obtain ⟨sc2, ho, h2⟩ := ih emptyCache RefCache.new simulates_new
      refine ⟨sc2, ?_, h2⟩
      show (clear sc).bind (fun sc' => observe sc' cs) = _
      rw [hc]
      exact ho

/-- C17: for every finite sequence of `Set`, `Get` and `clear` calls with their clock
readings, run one after the other on `NewShardedCache()`, every call returns and the
`Get` calls return, in order, exactly the `(value, found)` pairs that the same sequence
returns on the reference cache: one single map from key to `(Value, Expiration)` with the
same rules for `Set`, `Get` (delete when `now > Expiration`) and `clear`.  At the end the
single map is the union of the 256 shard maps. -/
theorem C17_refinement {V : Type} (calls : List (Call V)) :
    ∃ sc0 sc' : ShardedCache V, NewShardedCache = Except.ok sc0 ∧
      observe sc0 calls = Except.ok ((RefCache.new.observe calls).1, sc') ∧
      IsUnion sc' (RefCache.new.observe calls).2 := by
  obtain ⟨sc', ho, hs⟩ := observe_simulates calls emptyCache RefCache.new simulates_new
  exact ⟨emptyCache, sc', NewShardedCache_eq, ho, simulates_isUnion hs⟩

/-! ## C18: the last byte spreads over all shards -/

theorem xor_mod_two_pow (a b n : Nat) :
    (a ^^^ b) % 2 ^ n = (a % 2 ^ n) ^^^ (b % 2 ^ n) := by
  apply Nat.eq_of_testBit_eq
  intro i
  simp only [Nat.testBit_mod_two_pow, Nat.testBit_xor]
  by_cases h : i < n <;> simp [h]

/-- The low 8 bits of one FNV-1a step depend on the low 8 bits of the state only. -/
theorem low8_step (h : Nat) (b : Fin 256) :
    ((h ^^^ b.val) * prime32 % 2 ^ 32) % 256 = (((h % 256) ^^^ b.val) * 147) % 256 := by
  have hx : (h ^^^ b.val) % 256 = (h % 256) ^^^ b.val := by
    have := xor_mod_two_pow h b.val 8
    rw [show (2 : Nat) ^ 8 = 256 by norm_num, Nat.mod_eq_of_lt b.isLt] at this
    exact this
  rw [Nat.mod_mod_of_dvd _ (by norm_num : 256 ∣ 2 ^ 32), Nat.mul_mod, hx]
  rfl

theorem Write_append (h : Nat) (p : GoString) (b : Fin 256) :
    Write h (p ++ [b]) = ((Write h p ^^^ b.val) * prime32) % 2 ^ 32 := by
  unfold Write
  rw [List.foldl_append]
  rfl

theorem shardIndex_append (p : GoString) (b : Fin 256) :
    (shardIndex (p ++ [b])).val = (((shardIndex p).val ^^^ b.val) * 147) % 256 := by
  show Sum32 (Write New32a (p ++ [b])) % 256
    = ((Sum32 (Write New32a p) % 256 ^^^ b.val) * 147) % 256
  unfold Sum32
  rw [Write_append, low8_step]

theorem shardIndex_eq_index8 (key : GoString) : (shardIndex key).val = index8 key := by
  induction key using List.reverseRecOn with
  | nil => decide
  | append_singleton p b ih =>
    rw [shardIndex_append, ih]
    unfold index8
    rw [List.foldl_append]
    rfl

theorem shardIndex_last_injective (p : GoString) :
    Function.Injective fun b : Fin 256 => shardIndex (p ++ [b]) := by
  intro b1 b2 h
  have hv : (shardIndex (p ++ [b1])).val = (shardIndex (p ++ [b2])).val :=
    congrArg Fin.val h
  rw [shardIndex_append, shardIndex_append] at hv
  have hc : (shardIndex p).val < 2 ^ 8 := (shardIndex p).isLt
  have h1 : (shardIndex p).val ^^^ b1.val < 2 ^ 8 := Nat.xor_lt_two_pow hc b1.isLt
  have h2 : (shardIndex p).val ^^^ b2.val < 2 ^ 8 := Nat.xor_lt_two_pow hc b2.isLt
  have hx : (shardIndex p).val ^^^ b1.val = (shardIndex p).val ^^^ b2.val := by
    norm_num at h1 h2
    omega
  exact Fin.ext (Nat.xor_right_injective hx)

/-- C18: for every byte string `p`, the bytes `b` in `0..255` are sent one-to-one onto
the 256 slots by `b ↦ getShard(p followed by b)`; the slot obeys
`idx' = ((idx xor b) * 147) mod 256`, being the low 8 bits of the FNV-1a hash
(`16777619 mod 256 = 147`, which is odd); every slot is selected by some one-byte key;
and the slot of a key is the value of that recurrence started at 197. -/
theorem C18_last_byte_uniform (p : GoString) :
    Function.Bijective (fun b : Fin 256 => shardIndex (p ++ [b])) ∧
    (∀ b : Fin 256,
      (shardIndex (p ++ [b])).val = (((shardIndex p).val ^^^ b.val) * 147) % 256) ∧
    prime32 % 256 = 147 ∧ 147 % 2 = 1 ∧
    (∀ i : Fin numShards, ∃ b : Fin 256, shardIndex [b] = i) ∧
    (shardIndex p).val = index8 p ∧ index8 [] = 197 ∧
    (∀ {V : Type} (sc : ShardedCache V), getShard sc p = Except.ok (shardIndex p)) := by
  have hbij : ∀ q : GoString, Function.Bijective (fun b : Fin 256 => shardIndex (q ++ [b])) :=
    fun q => (Fintype.bijective_iff_injective_and_card _).mpr
      ⟨shardIndex_last_injective q, by rw [Fintype.card_fin, Fintype.card_fin]; rfl⟩
  refine ⟨hbij p, shardIndex_append p, by decide, by decide, ?_, shardIndex_eq_index8 p,
    rfl, fun sc => getShard_eq sc p⟩
  intro i
  obtain ⟨b, hb⟩ := (hbij []).2 i
  exact ⟨b, hb⟩

/-! ## C19: not-found is sticky -/

/-- A call that is not a `Set` on `key` keeps the key absent from the map of its slot. -/
theorem step_keeps_absent {V : Type} {sc : ShardedCache V} (hw : WellFormed sc)
    (hp : Placed sc) (key : GoString) (habs : sc.stored (shardIndex key) key = none)
    (c : Call V) (hc : ¬ c.isSetOn key) :
    ∃ sc', step sc c = Except.ok sc' ∧ WellFormed sc' ∧ Placed sc' ∧
      sc'.stored (shardIndex key) key = none := by
  cases c with
  | set t k2 v2 ttl2 =>
    have hk : key ≠ k2 := fun h => hc h.symm
    obtain ⟨sc', hs, hw', _, _⟩ := Set_entry hw t k2 v2 ttl2
    obtain ⟨sc2, hs2, _, _, hfr⟩ := Set_frame hw t k2 v2 ttl2
    rw [hs] at hs2
    cases hs2
    exact ⟨sc', hs, hw', Set_placed hw hp hs, by rw [hfr _ key hk]; exact habs⟩
  | get t k2 =>
    obtain ⟨r, sc', hg, hw'⟩ := Get_ok hw t k2
    obtain ⟨r2, sc2, hg2, _, hfr, hown⟩ := Get_frame hw t k2
    rw [hg] at hg2
    cases hg2
    refine ⟨sc', by simp [step, hg, Except.map], hw', Get_placed hw hp hg, ?_⟩
    by_cases hk : key = k2
    · subst hk
      rcases hown (shardIndex key) with h1 | h1
      · rw [h1]
        exact habs
      · exact h1
    · rw [hfr _ key hk]
      exact habs
  | clear =>
    exact ⟨emptyCache, clear_ok hw, wellFormed_emptyCache, placed_emptyCache,
      stored_emptyCache _ _⟩

theorem run_keeps_absent {V : Type} (key : GoString) (cs : List (Call V))
    (hcs : ∀ c ∈ cs, ¬ c.isSetOn key) :
    ∀ {sc : ShardedCache V}, WellFormed sc → Placed sc →
      sc.stored (shardIndex key) key = none →
      ∃ sc', run sc cs = Except.ok sc' ∧ WellFormed sc' ∧ Placed sc' ∧
        sc'.stored (shardIndex key) key = none := by
  induction cs with
  | nil => exact fun {sc} hw hp ha => ⟨sc, rfl, hw, hp, ha⟩
  | cons c cs ih =>
    intro sc hw hp ha
    obtain ⟨sc1, h1, hw1, hp1, ha1⟩ :=
      step_keeps_absent hw hp key ha c (hcs c (List.mem_cons_self c cs))
    obtain ⟨sc2, h2, hw2, hp2, ha2⟩ :=
      ih (fun d hd => hcs d (List.mem_cons_of_mem c hd)) hw1 hp1 ha1
    exact ⟨sc2, by rw [run_cons_ok cs h1, h2], hw2, hp2, ha2⟩

theorem absent_everywhere {V : Type} {sc : ShardedCache V} (hp : Placed sc)
    (key : GoString) (habs : sc.stored (shardIndex key) key = none) :
    ∀ i, sc.stored i key = none := by
  intro i
  by_contra hne
  have hi := hp i key hne
  rw [← hi] at hne
  exact hne habs

/-- C19: in a reachable cache, once `Get(k)` has returned `found = false` (the value is
then `nil`), `k` is in no shard's map; and after any further calls that are not a
`Set(k, ...)` (calls on other keys, `Get(k)`, `clear()`), `k` is still in no map and
`Get(k)` returns `(nil, false)` at every clock reading, earlier ones included. -/
theorem C19_not_found_sticky {V : Type} (sc : ShardedCache V) (h : Reachable sc)
    (now : Time) (key : GoString) (v : Option V) (sc1 : ShardedCache V)
    (hget : Get sc now key = Except.ok ((v, false), sc1)) :
    v = none ∧ (∀ i, sc1.stored i key = none) ∧
    ∀ mid : List (Call V), (∀ c ∈ mid, ¬ c.isSetOn key) →
      ∃ sc2, run sc1 mid = Except.ok sc2 ∧ (∀ i, sc2.stored i key = none) ∧
        ∀ g : Time, Get sc2 g key = Except.ok ((none, false), sc2) := by
  have hw := h.wellFormed
  have hw1 : WellFormed sc1 := (Reachable.get now key _ h hget).wellFormed
  have hp1 : Placed sc1 := (Reachable.get now key _ h hget).placed
  obtain ⟨f, hf, hc⟩ := Get_cases hw now key
  have hres : v = none ∧ sc1.stored (shardIndex key) key = none := by
    rcases hc with ⟨hk, hg⟩ | ⟨it, _, _, hg⟩ | ⟨it, _, _, hg⟩
    · rw [hg] at hget
      cases hget
      exact ⟨rfl, by rw [stored_of_shard hf, hk]⟩
    · rw [hg] at hget
      cases hget
    · rw [hg] at hget
      cases hget
      exact ⟨rfl, by rw [stored_setShard_self, Function.update_same]⟩
  refine ⟨hres.1, absent_everywhere hp1 key hres.2, ?_⟩
  intro mid hmid
  obtain ⟨sc2, hr, hw2, hp2, ha2⟩ := run_keeps_absent key mid hmid hw1 hp1 hres.2
  refine ⟨sc2, hr, absent_everywhere hp2 key ha2, fun g => ?_⟩
  apply Get_of_entry_none hw2 g key
  rw [entry_eq_stored hw2, ha2]
  rfl

theorem Get_sampleCache_expired :
    ∃ sc1, Get sampleCache clockExpired keyK = Except.ok ((none, false), sc1) :=
  Get_of_entry_stale reachable_sampleCache.wellFormed clockExpired keyK _
    entry_sampleCache (by decide)

/-- C19 at a concrete input: the sample cache holds `"k"` until second 1700003600; a
`Get("k")` at second 1700003601 does not find it, and after a `Set` on another key, a
`Get("k")` and a `clear()`, a `Get("k")` at the earlier second 1700000000 does not find
it either. -/
theorem C19_not_found_sticky_witness :
    Reachable sampleCache ∧
    ∃ sc1, Get sampleCache clockExpired keyK = Except.ok ((none, false), sc1) ∧
      ∃ sc2, run sc1 [Call.set clockA keyA 3 5, Call.get clockB keyK, Call.clear]
          = Except.ok sc2 ∧
        Get sc2 clock0 keyK = Except.ok ((none, false), sc2) := by
  obtain ⟨sc1, hg⟩ := Get_sampleCache_expired
  obtain ⟨_, _, hmid⟩ := C19_not_found_sticky sampleCache reachable_sampleCache
    clockExpired keyK none sc1 hg
  obtain ⟨sc2, hr, _, hg2⟩ := hmid
    [Call.set clockA keyA 3 5, Call.get clockB keyK, Call.clear] (by decide)
  exact ⟨reachable_sampleCache, sc1, hg, sc2, hr, hg2 clock0⟩

/-! ## C11: lock discipline and interleavings -/

theorem update_update_free (held : Held) (i : Fin numShards) (m : Mode)
    (h : held i = Mode.free) :
    Function.update (Function.update held i m) i Mode.free = held := by
  funext j
  by_cases hj : j = i
  · subst hj
    rw [Function.update_same, h]
  · rw [Function.update_noteq hj, Function.update_noteq hj]

/-- A section `Lock`, one write of the map, `Unlock` on a shard the goroutine does not
hold is disciplined and leaves the held locks as they were. -/
theorem disciplined_write_section (held : Held) (i : Fin numShards) (w : Event)
    (hw : w.writes i) (hi : held i = Mode.free) (rest : List Event)
    (hrest : Disciplined held rest) :
    Disciplined held (Event.Lock i :: w :: Event.Unlock i :: rest) := by
  have hex : Function.update held i Mode.exclusive i = Mode.exclusive :=
    Function.update_same _ _ _
  rcases hw with hw | hw | hw <;> subst hw
  · refine ⟨hi, hex, hex, ?_⟩
    show Disciplined (Function.update (Function.update held i Mode.exclusive) i Mode.free) rest
    rw [update_update_free held i _ hi]
    exact hrest
  · refine ⟨hi, hex, hex, ?_⟩
    show Disciplined (Function.update (Function.update held i Mode.exclusive) i Mode.free) rest
    rw [update_update_free held i _ hi]
    exact hrest
  · refine ⟨hi, hex, hex, ?_⟩
    show Disciplined (Function.update (Function.update held i Mode.exclusive) i Mode.free) rest
    rw [update_update_free held i _ hi]
    exact hrest

/-- A section `RLock`, map read, `RUnlock` likewise. -/
theorem disciplined_read_section (held : Held) (i : Fin numShards)
    (hi : held i = Mode.free) (rest : List Event) (hrest : Disciplined held rest) :
    Disciplined held (Event.RLock i :: Event.mapRead i :: Event.RUnlock i :: rest) := by
  have hsh : Function.update held i Mode.shared i = Mode.shared :=
    Function.update_same _ _ _
  refine ⟨hi, ?_, hsh, ?_⟩
  · show Function.update held i Mode.shared i ≠ Mode.free
    rw [hsh]
    exact fun h => by cases h
  · show Disciplined (Function.update (Function.update held i Mode.shared) i Mode.free) rest
    rw [update_update_free held i _ hi]
    exact hrest

theorem disciplined_Set (held : Held) (hfree : ∀ i, held i = Mode.free) (key : GoString) :
    Disciplined held (Set.events key) :=
  disciplined_write_section held (shardIndex key) _ (Or.inl rfl) (hfree _) [] hfree

theorem disciplined_Get (held : Held) (hfree : ∀ i, held i = Mode.free) (key : GoString)
    (stale : Bool) : Disciplined held (Get.events key stale) := by
  cases stale
  · exact disciplined_read_section held (shardIndex key) (hfree _) [] hfree
  · exact disciplined_read_section held (shardIndex key) (hfree _) _
      (disciplined_write_section held (shardIndex key) _ (Or.inr (Or.inl rfl)) (hfree _)
        [] hfree)

theorem clear_events_eq :
    clear.events = (List.finRange numShards).flatMap fun i =>
      [Event.Lock i, Event.mapReplace i, Event.Unlock i] := by
  unfold clear.events
  rfl

theorem disciplined_clear_loop (held : Held) (hfree : ∀ i, held i = Mode.free)
    (l : List (Fin numShards)) :
    ∀ es : List Event,
      es = (l.flatMap fun i => [Event.Lock i, Event.mapReplace i, Event.Unlock i]) →
      Disciplined held es := by
  induction l with
  | nil =>
    intro es hes
    subst hes
    exact hfree
  | cons i l ih =>
    intro es hes
    subst hes
    exact disciplined_write_section held i _ (Or.inr (Or.inr rfl)) (hfree i) _ (ih _ rfl)

theorem disciplined_clear (held : Held) (hfree : ∀ i, held i = Mode.free) :
    Disciplined held clear.events :=
  disciplined_clear_loop held hfree (List.finRange numShards) clear.events clear_events_eq

theorem disciplined_call (held : Held) (hfree : ∀ i, held i = Mode.free)
    {es : List Event} (h : IsCall es) : Disciplined held es := by
  rcases h with ⟨key, hk⟩ | ⟨key, stale, hk⟩ | hk
  · rw [hk]
    exact disciplined_Set held hfree key
  · rw [hk]
    exact disciplined_Get held hfree key stale
  · rw [hk]
    exact disciplined_clear held hfree


theorem reachable_disciplined {c : Config} (h : Config.Reachable c) :
    ∀ g, Disciplined (c g).held (c g).todo := by
  induction h with
  | init => exact fun g i => rfl
  | @step c c2 _ hstep ih =>
    cases hstep with
    | call g es htodo hcall =>
      intro g2
      by_cases hg : g2 = g
      · subst hg
        rw [Function.update_same]
        have hfree : Disciplined (c g2).held [] := by
          have := ih g2
          rw [htodo] at this
          exact this
        exact disciplined_call _ hfree hcall
      · rw [Function.update_noteq hg]
        exact ih g2
    | event g e rest htodo _ =>
      intro g2
      by_cases hg : g2 = g
      · subst hg
        rw [Function.update_same]
        have := ih g2
        rw [htodo] at this
        exact this.2
      · rw [Function.update_noteq hg]
        exact ih g2

theorem reachable_exclusion {c : Config} (h : Config.Reachable c) : Exclusion c := by
  induction h with
  | init =>
    intro g g2 i _ hex
    cases hex
  | @step c c2 _ hstep ih =>
    cases hstep with
    | call g es _ _ =>
      intro a b i hab hex
      have ha : (Function.update c g { held := (c g).held, todo := es } a).held = (c a).held := by
        by_cases h1 : a = g
        · subst h1
          rw [Function.update_same]
        · rw [Function.update_noteq h1]
      have hb : (Function.update c g { held := (c g).held, todo := es } b).held = (c b).held := by
        by_cases h1 : b = g
        · subst h1
          rw [Function.update_same]
        · rw [Function.update_noteq h1]
      rw [ha] at hex
      rw [hb]
      exact ih a b i hab hex
    | event g e rest _ hen =>
      intro a b i hab hex
      by_cases ha : a = g
      · subst ha
        have hb : b ≠ a := fun h => hab h.symm
        rw [Function.update_same] at hex
        rw [Function.update_noteq hb]
        have hold : (c a).held i = Mode.exclusive → (c b).held i = Mode.free :=
          ih a b i hab
        cases e with
        | Lock j =>
          by_cases hj : i = j
          · subst hj
            exact hen b
          · exact hold (by
              have : Function.update (c a).held j Mode.exclusive i = Mode.exclusive := hex
              rwa [Function.update_noteq hj] at this)
        | Unlock j =>
          have h2 : Function.update (c a).held j Mode.free i = Mode.exclusive := hex
          by_cases hj : i = j
          · subst hj
            rw [Function.update_same] at h2
            cases h2
          · rw [Function.update_noteq hj] at h2
            exact hold h2
        | RLock j =>
          have h2 : Function.update (c a).held j Mode.shared i = Mode.exclusive := hex
          by_cases hj : i = j
          · subst hj
            rw [Function.update_same] at h2
            cases h2
          · rw [Function.update_noteq hj] at h2
            exact hold h2
        | RUnlock j =>
          have h2 : Function.update (c a).held j Mode.free i = Mode.exclusive := hex
          by_cases hj : i = j
          · subst hj
            rw [Function.update_same] at h2
            cases h2
          · rw [Function.update_noteq hj] at h2
            exact hold h2
        | mapRead j => exact hold hex
        | mapInsert j => exact hold hex
        | mapDelete j => exact hold hex
        | mapReplace j => exact hold hex
      · rw [Function.update_noteq ha] at hex
        by_cases hb : b = g
        · subst hb
          rw [Function.update_same]
          have hold : (c b).held i = Mode.free := ih a b i hab hex
          cases e with
          | Lock j =>
            show Function.update (c b).held j Mode.exclusive i = Mode.free
            by_cases hj : i = j
            · subst hj
              have := hen a
              rw [hex] at this
              cases this
            · rw [Function.update_noteq hj]
              exact hold
          | Unlock j =>
            show Function.update (c b).held j Mode.free i = Mode.free
            by_cases hj : i = j
            · subst hj
              rw [Function.update_same]
            · rw [Function.update_noteq hj]
              exact hold
          | RLock j =>
            show Function.update (c b).held j Mode.shared i = Mode.free
            by_cases hj : i = j
            · subst hj
              exact absurd hex (hen a)
            · rw [Function.update_noteq hj]
              exact hold
          | RUnlock j =>
            show Function.update (c b).held j Mode.free i = Mode.free
            by_cases hj : i = j
            · subst hj
              rw [Function.update_same]
            · rw [Function.update_noteq hj]
              exact hold
          | mapRead j => exact hold
          | mapInsert j => exact hold
          | mapDelete j => exact hold
          | mapReplace j => exact hold
        · rw [Function.update_noteq hb]
          exact ih a b i hab hex

/-- In reachable configurations a map write that is next for one goroutine never meets a
map access to the same shard that is next for another. -/
theorem reachable_no_race {c : Config} (h : Config.Reachable c) (g g2 : Nat)
    (i : Fin numShards) (e e2 : Event) (rest rest2 : List Event) (hg : g ≠ g2)
    (ht : (c g).todo = e :: rest) (ht2 : (c g2).todo = e2 :: rest2) (hw : e.writes i) :
    ¬ e2.accesses i := by
  intro ha
  have hd := reachable_disciplined h g
  have hd2 := reachable_disciplined h g2
  rw [ht] at hd
  rw [ht2] at hd2
  have hex : (c g).held i = Mode.exclusive := by
    rcases hw with hw | hw | hw <;> subst hw <;> exact hd.1
  have hfree : (c g2).held i = Mode.free := reachable_exclusion h g g2 i hg hex
  rcases ha with ha | ha | ha | ha <;> subst ha
  · exact hd2.1 hfree
  · have h3 : (c g2).held i = Mode.exclusive := hd2.1
    rw [hfree] at h3
    cases h3
  · have h3 : (c g2).held i = Mode.exclusive := hd2.1
    rw [hfree] at h3
    cases h3
  · have h3 : (c g2).held i = Mode.exclusive := hd2.1
    rw [hfree] at h3
    cases h3

theorem Get_read_ok {V : Type} {sc : ShardedCache V} (hw : WellFormed sc)
    (key : GoString) :
    ∃ item found, Get.read sc key = Except.ok (shardIndex key, item, found) ∧
      (found = true → ∃ it, item = some it) := by
  obtain ⟨f, hf, hn⟩ := hw (shardIndex key)
  cases hk : f key with
  | none =>
    refine ⟨none, false, ?_, fun h => by cases h⟩
    simp [Get.read, getShard_eq, hf, hk, deref, ItemMap.lookup, bind, Except.bind, pure,
      Except.pure]
  | some p =>
    cases p with
    | none => exact absurd hk (hn key)
    | some it => exact ⟨some it, true, Get_read_found key it hf hk, fun _ => ⟨it, rfl⟩⟩

theorem Get_finish_ok {V : Type} {sc : ShardedCache V} (hw : WellFormed sc) (now : Time)
    (key : GoString) (shard : Fin numShards) (item : Ptr (Item V)) (found : Bool)
    (hitem : found = true → ∃ it, item = some it) :
    ∃ r sc', Get.finish sc now key shard item found = Except.ok (r, sc') ∧
      WellFormed sc' := by
  cases found with
  | false =>
    refine ⟨(none, false), sc, ?_, hw⟩
    simp [Get.finish, bind, Except.bind, pure, Except.pure]
  | true =>
    obtain ⟨it, hit⟩ := hitem rfl
    subst hit
    obtain ⟨f, hf, hn⟩ := hw shard
    by_cases ht : it.Expiration < now.Unix
    · refine ⟨_, _, Get_finish_stale now key shard it hf ht, wellFormed_setShard hw _ _ ?_⟩
      intro k
      by_cases hk : k = key
      · subst hk
        simp
      · rw [Function.update_noteq hk]
        exact hn k
    · refine ⟨(some it.Value, true), sc, ?_, hw⟩
      simp [Get.finish, ht, deref, bind, Except.bind, pure, Except.pure]

theorem clear_body_ok {V : Type} {sc : ShardedCache V} (hw : WellFormed sc)
    (i : Fin numShards) :
    ∃ sc', clear.body sc i = Except.ok sc' ∧ WellFormed sc' := by
  obtain ⟨f, hf, _⟩ := hw i
  refine ⟨sc.setShard i (some { items := some (fun _ => none) }), ?_,
    wellFormed_setShard hw i _ (fun k h => by cases h)⟩
  simp [clear.body, hf, deref, bind, Except.bind, pure, Except.pure, ItemMap.make]

theorem interleaved_wellFormed {V : Type} {sc : ShardedCache V} (h : Interleaved sc) :
    WellFormed sc := by
  induction h with
  | new h0 =>
    rw [NewShardedCache_eq] at h0
    cases h0
    exact wellFormed_emptyCache
  | set now key value ttl _ hset ih =>
    obtain ⟨sc2, h2, hw⟩ := Set_ok ih now key value ttl
    rw [h2] at hset
    cases hset
    exact hw
  | getFinish now key shard item found r _ hread _ hfin ih0 ih =>
    obtain ⟨item2, found2, hr2, hitem⟩ := Get_read_ok ih0 key
    rw [hr2] at hread
    cases hread
    obtain ⟨r2, sc2, hf2, hw⟩ := Get_finish_ok ih now key (shardIndex key) item found hitem
    rw [hf2] at hfin
    cases hfin
    exact hw
  | clearBody i _ hbody ih =>
    obtain ⟨sc2, h2, hw⟩ := clear_body_ok ih i
    rw [h2] at hbody
    cases hbody
    exact hw

/-- C11: each of `Set`, `Get` and `clear` reads a shard's `items` map only while it
holds that shard's lock (shared or exclusive), inserts, deletes and replaces the map only
while it holds the lock exclusively, and has released every lock when it returns.  In
every configuration that interleaved goroutines making such calls reach under the
blocking rule of `sync.RWMutex`, a shard that one goroutine holds exclusively is held by no
other, and a map write that is next for one goroutine never coincides with a map access
to the same shard that is next for another (no data race).  In every cache state the
interleaved locked sections reach there is no nil slot, map or item, and every section
returns without a panic. -/
theorem C11_concurrency_safety :
    (∀ key, Disciplined (fun _ => Mode.free) (Set.events key)) ∧
    (∀ key stale, Disciplined (fun _ => Mode.free) (Get.events key stale)) ∧
    Disciplined (fun _ => Mode.free) clear.events ∧
    (∀ c : Config, c.Reachable →
      (∀ g, Disciplined (c g).held (c g).todo) ∧ Exclusion c ∧
      ∀ (g g2 : Nat) (i : Fin numShards) (e e2 : Event) (rest rest2 : List Event),
        g ≠ g2 → (c g).todo = e :: rest → (c g2).todo = e2 :: rest2 → e.writes i →
        ¬ e2.accesses i) ∧
    (∀ {V : Type} (sc : ShardedCache V), Interleaved sc →
      WellFormed sc ∧
      (∀ now key value ttl, ∃ sc', Set sc now key value ttl = Except.ok sc') ∧
      (∀ key, ∃ shard item found, Get.read sc key = Except.ok (shard, item, found) ∧
        ∀ (sc2 : ShardedCache V) (now : Time), Interleaved sc2 →
          ∃ r sc3, Get.finish sc2 now key shard item found = Except.ok (r, sc3)) ∧
      (∀ i, ∃ sc', clear.body sc i = Except.ok sc')) := by
  refine ⟨fun key => disciplined_Set _ (fun _ => rfl) key,
    fun key stale => disciplined_Get _ (fun _ => rfl) key stale,
    disciplined_clear _ (fun _ => rfl),
    fun c hc => ⟨reachable_disciplined hc, reachable_exclusion hc, reachable_no_race hc⟩,
    ?_⟩
  intro V sc hsc
  have hw := interleaved_wellFormed hsc
  refine ⟨hw, ?_, ?_, ?_⟩
  · intro now key value ttl
    obtain ⟨sc', hs, _⟩ := Set_ok hw now key value ttl
    exact ⟨sc', hs⟩
  · intro key
    obtain ⟨item, found, hr, hitem⟩ := Get_read_ok hw key
    refine ⟨_, item, found, hr, ?_⟩
    intro sc2 now hsc2
    obtain ⟨r, sc3, hf, _⟩ := Get_finish_ok (interleaved_wellFormed hsc2) now key (shardIndex key) item
      found hitem
    exact ⟨r, sc3, hf⟩
  · intro i
    obtain ⟨sc', hb, _⟩ := clear_body_ok hw i
    exact ⟨sc', hb⟩

theorem reachable_configLocked : Config.Reachable configLocked := by
  have h1 : Config.Reachable configCalled :=
    Config.Reachable.step Config.Reachable.init
      (Config.Step.call Config.init 0 (Set.events keyK) rfl (Or.inl ⟨keyK, rfl⟩))
  refine Config.Reachable.step h1
    (Config.Step.event configCalled 0 (Event.Lock (shardIndex keyK))
      [Event.mapInsert (shardIndex keyK), Event.Unlock (shardIndex keyK)] rfl ?_)
  intro g
  unfold configCalled
  by_cases hg : g = 0
  · subst hg
    rfl
  · rw [Function.update_noteq hg]
    rfl

/-- C11 at a concrete configuration: goroutine 0 is inside `Set("k", ...)` and holds the
lock of the shard of `"k"` exclusively; no other goroutine holds that lock. -/
theorem C11_concurrency_safety_witness :
    Config.Reachable configLocked ∧
    (configLocked 0).held (shardIndex keyK) = Mode.exclusive ∧
    ∀ g, g ≠ 0 → (configLocked g).held (shardIndex keyK) = Mode.free :=
  ⟨reachable_configLocked, rfl, fun g hg =>
    (C11_concurrency_safety.2.2.2.1 configLocked reachable_configLocked).2.1 0 g
      (shardIndex keyK) (fun h => hg h.symm) rfl⟩

end CoffeeCache
